import Mathlib

/-!
# carbonapi: date normalisation and the render fan-out / fan-in

A shallow embedding of `main.go`.

* Go strings are byte sequences; a string is modelled as the list of its
  bytes, each byte held in a `Char`.  (Every byte the program inspects is
  compared with an ASCII character, so nothing depends on the encoding.)
* `int` is the 64 bit integer of the amd64 / arm64 targets, so the
  conversions `int(d)` and `int(t.Unix())` from `int64` are the identity.
* Library calls (`strconv.Atoi`, `strconv.Itoa`, `strings.Replace`,
  `time.Parse`, `time.Time.Unix`, `json.Encoder.Encode`) are modelled after
  the Go standard library; `time.Parse` validates the day of the month against
  the month, as it does since Go 1.6.
* `renderHandler` is modelled twice.  Sequentially, as a function of the
  outcomes of the backend calls and of the order in which the values of the
  goroutines arrive on `rch` (`Scheduler`); and step by step, as a transition
  system of all goroutines, the channel `Limiter` and the channels `rch`
  (`Sys`, `step`).  The theorems `received_perm_sent`, `progress` and
  `completes` connect the two: under a Limiter of capacity at least 1 every
  receive loop runs to its end, and what it takes is a rearrangement of what
  its goroutines send.
-/

namespace Carbonapi

/-- A Go string: its sequence of bytes. -/
abbrev Str := List Char

/-! ## strconv -/

/-- Byte test `'0' <= c && c <= '9'`. -/
def isDigit (c : Char) : Bool := decide (48 ≤ c.toNat) && decide (c.toNat ≤ 57)

/-- Value of a decimal digit byte, `c - '0'`. -/
def digitVal (c : Char) : Nat := c.toNat - 48

/-- Largest `uint64`. -/
def maxUint64 : Nat := 2 ^ 64 - 1

/-- In `strconv.ParseUint` for base 10: `cutoff = maxUint64/10 + 1`, the
smallest `n` for which `n * 10` overflows. -/
def cutoff : Nat := maxUint64 / 10 + 1

/-- The digit loop of `strconv.ParseUint(s, 10, 64)`: `none` stands for both
`ErrSyntax` (a byte that is no digit) and `ErrRange` (overflow of `uint64`). -/
def parseUintLoop : Str → Nat → Option Nat
  | [], n => some n
  | c :: cs, n =>
    if !isDigit c then none
    else if cutoff ≤ n then none
    else
      let n10 := n * 10
      let n1 := (n10 + digitVal c) % 2 ^ 64
      if n1 < n10 ∨ maxUint64 < n1 then none
      else parseUintLoop cs n1

/-- Model of `strconv.ParseUint(s, 10, 64)`; the empty string is a syntax error. -/
def ParseUint (s : Str) : Option Nat :=
  if s = [] then none else parseUintLoop s 0

/-- Model of `strconv.ParseInt(s, 10, 0)` on a 64 bit target: an optional
sign, then `ParseUint`, then the range check against `1 << 63`. -/
def ParseInt (s : Str) : Option Int :=
  match s with
  | [] => none
  | c :: cs =>
    let neg := decide (c = '-')
    let body := if c = '+' ∨ c = '-' then cs else c :: cs
    match ParseUint body with
    | none => none
    | some un =>
      if !neg && decide (2 ^ 63 ≤ un) then none
      else if neg && decide (2 ^ 63 < un) then none
      else some (if neg then -(un : Int) else (un : Int))

/-- Model of `strconv.Atoi`, which is `ParseInt(s, 10, 0)`. -/
def Atoi (s : Str) : Option Int := ParseInt s

/-- Model of `strconv.Itoa`: the decimal rendering of an integer. -/
def Itoa (i : Int) : Str :=
  match i with
  | Int.ofNat n => Nat.toDigits 10 n
  | Int.negSucc n => '-' :: Nat.toDigits 10 (n + 1)

/-! ## strings -/

/-- Model of `strings.Contains(s, "_")`. -/
def containsUnderscore (s : Str) : Bool := s.contains '_'

/-- Model of `strings.Replace(s, "_", " ", 1)`: the first underscore, if any,
becomes a space. -/
def replaceFirstUnderscore : Str → Str
  | [] => []
  | c :: cs => if c = '_' then ' ' :: cs else c :: replaceFirstUnderscore cs

/-! ## time.Parse for the layouts of `timeFormats` -/

/-- The layout elements (`std` chunks of `nextStdChunk`) occurring in
`timeFormats`. -/
inductive Std where
  /-- Layout text `15`. -/
  | stdHour
  /-- Layout text `04`. -/
  | stdZeroMinute
  /-- Layout text `2006`. -/
  | stdLongYear
  /-- Layout text `01`. -/
  | stdZeroMonth
  /-- Layout text `02`. -/
  | stdZeroDay
  /-- Layout text `06`. -/
  | stdYear
  deriving DecidableEq, Repr

/-- One piece of a layout as `nextStdChunk` cuts it: a literal byte of the
prefix or a `std` element. -/
inductive Item where
  | lit (c : Char)
  | std (s : Std)
  deriving DecidableEq, Repr

/-- The layout text an item was cut from. -/
def Item.text : Item → Str
  | .lit c => [c]
  | .std .stdHour => "15".toList
  | .std .stdZeroMinute => "04".toList
  | .std .stdLongYear => "2006".toList
  | .std .stdZeroMonth => "01".toList
  | .std .stdZeroDay => "02".toList
  | .std .stdYear => "06".toList

/-- The layout string a list of items was cut from. -/
def layoutText (l : List Item) : Str := (l.map Item.text).flatten

/-- The variable `timeFormats`:
`[]string{"15:04 20060102", "20060102", "01/02/06"}`, each layout cut into
its items. -/
def timeFormats : List (List Item) :=
  [ [.std .stdHour, .lit ':', .std .stdZeroMinute, .lit ' ',
     .std .stdLongYear, .std .stdZeroMonth, .std .stdZeroDay],
    [.std .stdLongYear, .std .stdZeroMonth, .std .stdZeroDay],
    [.std .stdZeroMonth, .lit '/', .std .stdZeroDay, .lit '/', .std .stdYear] ]

/-- The function `cutspace` of package time: drop leading spaces. -/
def cutspace : Str → Str
  | [] => []
  | c :: cs => if c = ' ' then cutspace cs else c :: cs

/-- The function `skip(value, prefix)` of package time for a prefix of one
byte `p`: a space in the layout matches a run of spaces in the value (also the
empty value), any other byte matches itself. -/
def skip (value : Str) (p : Char) : Option Str :=
  if p = ' ' then
    match value with
    | [] => some []
    | v :: vs => if v ≠ ' ' then none else some (cutspace (v :: vs))
  else
    match value with
    | [] => none
    | v :: vs => if v ≠ p then none else some vs

/-- The function `getnum(s, fixed)` of package time: one or two digits
(`fixed` forces two) and the rest of the string. -/
def getnum (s : Str) (fixed : Bool) : Option (Int × Str) :=
  match s with
  | [] => none
  | [c0] =>
    if !isDigit c0 then none
    else if fixed then none
    else some ((digitVal c0 : Int), [])
  | c0 :: c1 :: rest =>
    if !isDigit c0 then none
    else if !isDigit c1 then
      if fixed then none else some ((digitVal c0 : Int), c1 :: rest)
    else some ((digitVal c0 : Int) * 10 + (digitVal c1 : Int), rest)

/-- The function `leadingInt` of package time: the leading digits of `s` as
a number (starting from `x`) and the rest; `none` on overflow. -/
def leadingInt : Str → Nat → Option (Nat × Str)
  | [], x => some (x, [])
  | c :: cs, x =>
    if !isDigit c then some (x, c :: cs)
    else if 2 ^ 63 / 10 < x then none
    else
      let x1 := x * 10 + digitVal c
      if 2 ^ 63 < x1 then none else leadingInt cs x1

/-- The function `atoi` of package time: an optional sign and digits up to
the end of the string. -/
def timeAtoi (s : Str) : Option Int :=
  let neg := match s with
    | c :: _ => decide (c = '-')
    | [] => false
  let body := match s with
    | c :: cs => if c = '-' ∨ c = '+' then cs else c :: cs
    | [] => []
  match leadingInt body 0 with
  | none => none
  | some (q, rem) =>
    if rem ≠ [] then none
    else some (if neg then -(q : Int) else (q : Int))

/-- The date and time fields `parse` fills in. -/
structure Fields where
  year : Int := 0
  month : Int := -1
  day : Int := -1
  hour : Int := 0
  min : Int := 0
  deriving DecidableEq, Repr

/-- One `std` case of the `switch` in `time.parse`: consume the element from
the value and store the field; `none` is a parse error (`errBad` or a range
error). -/
def parseStd (std : Std) (value : Str) (f : Fields) : Option (Str × Fields) :=
  match std with
  | .stdYear =>
    if value.length < 2 then none
    else
      match timeAtoi (value.take 2) with
      | none => none
      | some y =>
        some (value.drop 2, { f with year := if 69 ≤ y then y + 1900 else y + 2000 })
  | .stdLongYear =>
    if value.length < 4 ∨ !(isDigit (value.headD ' ')) then none
    else
      match timeAtoi (value.take 4) with
      | none => none
      | some y => some (value.drop 4, { f with year := y })
  | .stdZeroMonth =>
    match getnum value true with
    | none => none
    | some (m, rest) =>
      if m ≤ 0 ∨ 12 < m then none else some (rest, { f with month := m })
  | .stdZeroDay =>
    match getnum value true with
    | none => none
    | some (d, rest) => some (rest, { f with day := d })
  | .stdHour =>
    match getnum value false with
    | none => none
    | some (h, rest) =>
      if h < 0 ∨ 24 ≤ h then none else some (rest, { f with hour := h })
  | .stdZeroMinute =>
    match getnum value true with
    | none => none
    | some (m, rest) =>
      if m < 0 ∨ 60 ≤ m then none else some (rest, { f with min := m })

/-- The main loop of `time.parse`: match the value against the layout item by
item; at the end of the layout the value must be used up. -/
def parseItems : List Item → Str → Fields → Option Fields
  | [], value, f => if value ≠ [] then none else some f
  | .lit c :: rest, value, f =>
    match skip value c with
    | none => none
    | some value1 => parseItems rest value1 f
  | .std s :: rest, value, f =>
    match parseStd s value f with
    | none => none
    | some (value1, f1) => parseItems rest value1 f1

/-- The function `isLeap` of package time. -/
def isLeap (year : Int) : Bool :=
  decide (year % 4 = 0) && (decide (year % 100 ≠ 0) || decide (year % 400 = 0))

/-- The table `daysBefore` of package time: days before the start of month
`m + 1` in a non-leap year. -/
def daysBefore : List Int :=
  [0, 31, 59, 90, 120, 151, 181, 212, 243, 273, 304, 334, 365]

/-- The function `daysIn(m, year)` of package time. -/
def daysIn (m : Int) (year : Int) : Int :=
  if m = 2 ∧ isLeap year then 29
  else daysBefore.getD m.toNat 0 - daysBefore.getD (m.toNat - 1) 0

/-- The constant `absoluteZeroYear` of package time. -/
def absoluteZeroYear : Int := -292277022399

/-- The function `daysSinceEpoch(year)` of package time: days from the
absolute epoch to January 1 of `year`. -/
def daysSinceEpoch (year : Int) : Int :=
  let y := year - absoluteZeroYear
  let n400 := y / 400
  let y1 := y - 400 * n400
  let n100 := y1 / 100
  let y2 := y1 - 100 * n100
  let n4 := y2 / 4
  let y3 := y2 - 4 * n4
  146097 * n400 + 36524 * n100 + 1461 * n4 + 365 * y3

/-- The constant `absoluteToInternal + internalToUnix` of package time, the
offset from absolute seconds to Unix seconds. -/
def absoluteToUnix : Int :=
  (absoluteZeroYear - 1) * 31556952 - (1969 * 365 + 1969 / 4 - 1969 / 100 + 1969 / 400) * 86400

/-- The value `time.Date(year, month, day, hour, min, 0, 0, time.UTC).Unix()`
for fields already in range (`parse` has checked them): seconds since
1970-01-01 00:00 UTC. -/
def dateUnix (year month day hour min : Int) : Int :=
  let d := daysSinceEpoch year + daysBefore.getD (month.toNat - 1) 0
    + (if isLeap year ∧ 3 ≤ month then 1 else 0) + (day - 1)
  d * 86400 + (hour * 3600 + min * 60) + absoluteToUnix

/-- Model of `time.Parse(layout, value)` followed by `.Unix()`: the fields
are parsed, the day of the month is validated, and the time is taken in UTC
(no layout of `timeFormats` has a zone). -/
def timeParseUnix (layout : List Item) (value : Str) : Option Int :=
  match parseItems layout value {} with
  | none => none
  | some f =>
    let month := if f.month = -1 then 1 else f.month
    let day := if f.day = -1 then 1 else f.day
    if day < 1 ∨ daysIn month f.year < day then none
    else some (dateUnix f.year month day f.hour f.min)

/-! ## dateParamToEpoch -/

/-- The loop `for _, format := range timeFormats` of `dateParamToEpoch`: the
first layout that parses wins, otherwise the default. -/
def tryFormats : List (List Item) → Str → Int → Str
  | [], _, d => Itoa d
  | format :: rest, s, d =>
    match timeParseUnix format s with
    | some t => Itoa t
    | none => tryFormats rest s d

/-- The function `dateParamToEpoch(s, d)`. -/
def dateParamToEpoch (s : Str) (d : Int) : Str :=
  if s = [] then Itoa d
  else if (Atoi s).isSome ∧ 8 < s.length then s
  else
    let s1 := if containsUnderscore s then replaceFirstUnderscore s else s
    tryFormats timeFormats s1 d

/-! ## Data model of the backend protocol -/

/-- The message `cspb.GlobMatch`: one resolved candidate of a pattern. -/
structure GlobMatch where
  path : Str
  isLeaf : Bool
  deriving DecidableEq, Repr

/-- The message `cspb.GlobResponse`: the outcome of one find call. -/
structure GlobResponse where
  name : Str
  Matches : List GlobMatch
  deriving DecidableEq, Repr

/-- The backend as the handler sees it.  `Find i target` is the outcome of the
`Zipper.Find` call made for the target at position `i`; `Render i j` is the
outcome of the `Zipper.Render` call made by the goroutine of match `j` of that
target.  `none` is a returned error (transport or decoding).  The payload type
`F` stands for `cspb.FetchResponse`, which the handler only passes through. -/
structure Backend (F : Type) where
  Find : Nat → Str → Option GlobResponse
  Render : Nat → Nat → Str → Str → Str → Option F

/-- A Go slice value: `none` is the nil slice, `some xs` a non-nil slice. -/
abbrev Slice (α : Type) := Option (List α)

/-- The built-in `append(s, x)`. -/
def Slice.append {α : Type} : Slice α → α → Slice α
  | none, x => some [x]
  | some xs, x => some (xs ++ [x])

/-- The elements of a slice; the nil slice has none. -/
def Slice.elems {α : Type} : Slice α → List α
  | none => []
  | some xs => xs

/-! ## The render goroutine -/

/-- One call `Zipper.Render(metric, from, until)`, tagged with the position of
the target it was issued for. -/
structure RenderCall where
  target : Nat
  metric : Str
  fromEpoch : Str
  untilEpoch : Str
  deriving DecidableEq, Repr

/-- The observable steps of the goroutine started for one match. -/
inductive Action (F : Type) where
  /-- The call `Limiter.enter()`. -/
  | enter
  /-- A call of `Zipper.Render`. -/
  | render (call : RenderCall)
  /-- The statement `rch <- v`; `none` is the nil pointer. -/
  | send (v : Option F)
  /-- The call `Limiter.leave()`. -/
  | leave
  deriving DecidableEq, Repr

/-- The body of `go func(m *cspb.GlobMatch) { ... }(m)` as the sequence of
steps it performs, given the outcome function of its own Render call. -/
def goFunc {F : Type} (i : Nat) (render : Str → Str → Str → Option F)
    (fromEpoch untilEpoch : Str) (m : GlobMatch) : List (Action F) :=
  [Action.enter] ++
  (if m.isLeaf then
    [Action.render ⟨i, m.path, fromEpoch, untilEpoch⟩,
      match render m.path fromEpoch untilEpoch with
      | none => Action.send none
      | some r => Action.send (some r)]
  else
    [Action.send none]) ++
  [Action.leave]

/-- The values a piece of goroutine code sends on `rch`. -/
def sentValues {F : Type} : List (Action F) → List (Option F)
  | [] => []
  | Action.send v :: rest => v :: sentValues rest
  | _ :: rest => sentValues rest

/-- The Render calls a piece of goroutine code issues. -/
def renderCalls {F : Type} : List (Action F) → List RenderCall
  | [] => []
  | Action.render c :: rest => c :: renderCalls rest
  | _ :: rest => renderCalls rest

/-! ## renderHandler, sequentially -/

/-- The order in which the values sent by the goroutines of one target arrive
on `rch`: some rearrangement of them, free for every target.  (That the
receive loop gets a rearrangement of the values sent, and gets all of them, is
shown on the transition system below.) -/
structure Scheduler (F : Type) where
  order : Nat → List (Option F) → List (Option F)
  perm : ∀ i l, (order i l).Perm l

/-- The receive loop `for i := 0; i < len(glob.GetMatches()); i++`, fed with
the values in their order of arrival: non-nil values are appended. -/
def collect {F : Type} : Slice F → List (Option F) → Slice F
  | results, [] => results
  | results, none :: rest => collect results rest
  | results, some r :: rest => collect (results.append r) rest

/-- What the handler has accumulated: the variable `results`, and the log of
the backend calls issued so far. -/
structure HState (F : Type) where
  results : Slice F := none
  findCalls : List Str := []
  renderLog : List RenderCall := []

/-- The goroutines started for the matches of target `i`. -/
def dispatch {F : Type} (b : Backend F) (i : Nat) (fromEpoch untilEpoch : Str)
    (glob : GlobResponse) : List (List (Action F)) :=
  glob.Matches.enum.map fun jm => goFunc i (b.Render i jm.1) fromEpoch untilEpoch jm.2

/-- The loop `for _, target := range targets` of `renderHandler`, from the
target at position `i` on. -/
def handleTargets {F : Type} (b : Backend F) (sched : Scheduler F)
    (fromEpoch untilEpoch : Str) : Nat → List Str → HState F → HState F
  | _, [], st => st
  | i, target :: rest, st =>
    match b.Find i target with
    | none =>
      handleTargets b sched fromEpoch untilEpoch (i + 1) rest
        { st with findCalls := st.findCalls ++ [target] }
    | some glob =>
      let tasks := dispatch b i fromEpoch untilEpoch glob
      let arrivals := (sched.order i (tasks.map sentValues).flatten).take glob.Matches.length
      handleTargets b sched fromEpoch untilEpoch (i + 1) rest
        { results := collect st.results arrivals
          findCalls := st.findCalls ++ [target]
          renderLog := st.renderLog ++ (tasks.map renderCalls).flatten }

/-- The parsed form of the request: `r.Form["target"]`, `r.FormValue("from")`
and `r.FormValue("until")` (empty when absent). -/
structure Request where
  targets : List Str
  fromParam : Str
  untilParam : Str

/-- The two readings of `time.Now().Unix()` the handler takes. -/
structure Clock where
  nowFrom : Int
  nowUntil : Int

/-- Model of `json.NewEncoder(w).Encode(v)` for `v` of type
`[]*cspb.FetchResponse` with non-nil elements: the nil slice is written as
`null`, any other slice as an array; a newline follows.  The encoding `enc` of
one element is owned by the backend protocol. -/
def jsonEncode {F : Type} (enc : F → Str) : Slice F → Str
  | none => "null\n".toList
  | some xs => ['['] ++ [','].intercalate (xs.map enc) ++ [']', '\n']

/-- What one run of `renderHandler` produces. -/
structure Response (F : Type) where
  results : Slice F
  findCalls : List Str
  renderLog : List RenderCall
  contentType : Str
  body : Str

/-- The function `renderHandler`. -/
def renderHandler {F : Type} (b : Backend F) (sched : Scheduler F) (clock : Clock)
    (enc : F → Str) (r : Request) : Response F :=
  let fromEpoch := dateParamToEpoch r.fromParam (clock.nowFrom - 24 * 3600)
  let untilEpoch := dateParamToEpoch r.untilParam clock.nowUntil
  let st := handleTargets b sched fromEpoch untilEpoch 0 r.targets {}
  { results := st.results
    findCalls := st.findCalls
    renderLog := st.renderLog
    contentType := "application/json".toList
    body := jsonEncode enc st.results }

/-! ## The goroutines, the Limiter and the result channels, step by step -/

/-- One fan-out of `renderHandler`: the goroutines started for the matches of
one target whose find succeeded, their channel `rch`, and the receive loop of
the handler. -/
structure Fan (F : Type) where
  /-- For each goroutine, the code it has still to run. -/
  tasks : List (List (Action F))
  /-- The values buffered in `rch`, oldest first. -/
  rch : List (Option F)
  /-- The values the receive loop has taken so far, in order. -/
  received : List (Option F)
  /-- The number `len(glob.GetMatches())`: capacity of `rch` and bound of the
  receive loop. -/
  size : Nat
  deriving DecidableEq, Repr

/-- The state of the process: the number of tokens buffered in the channel
`Limiter`, and every fan-out started so far, by any request. -/
structure Sys (F : Type) where
  limiter : Nat
  fans : List (Fan F)
  deriving DecidableEq, Repr

/-- The state after `Limiter = make(chan struct{}, *l)`: the channel is empty
and no goroutine has been started. -/
def Sys.init (F : Type) : Sys F := ⟨0, []⟩

/-- What can happen next. -/
inductive Event (F : Type) where
  /-- A handler makes `rch` and starts the goroutines for the matches of the
  target at position `i`. -/
  | fanOut (b : Backend F) (i : Nat) (fromEpoch untilEpoch : Str) (glob : GlobResponse)
  /-- Goroutine `j` of fan-out `k` performs its next step. -/
  | run (k j : Nat)
  /-- The handler of fan-out `k` performs `r := <-rch`. -/
  | recv (k : Nat)

/-- The function `limiter.enter`, `l <- struct{}{}`: a send on the channel of
capacity `cap`, possible while the buffer is not full. -/
def enter (cap : Nat) (limiter : Nat) : Option Nat :=
  if limiter < cap then some (limiter + 1) else none

/-- The function `limiter.leave`, `<-l`: a receive on the channel, possible
while the buffer is not empty. -/
def leave (limiter : Nat) : Option Nat :=
  if 0 < limiter then some (limiter - 1) else none

/-- One step of goroutine `j` of the fan-out `fan`, under a Limiter of
capacity `cap` holding `limiter` tokens: the new token count and fan-out, or
`none` when the goroutine does not exist, has finished, or is blocked. -/
def Fan.runTask {F : Type} (cap : Nat) (limiter : Nat) (fan : Fan F) (j : Nat) :
    Option (Nat × Fan F) :=
  match fan.tasks[j]? with
  | none => none
  | some [] => none
  | some (Action.enter :: rest) =>
    match enter cap limiter with
    | none => none
    | some l1 => some (l1, { fan with tasks := fan.tasks.set j rest })
  | some (Action.render _ :: rest) =>
    some (limiter, { fan with tasks := fan.tasks.set j rest })
  | some (Action.send v :: rest) =>
    if fan.rch.length < fan.size then
      some (limiter, { fan with tasks := fan.tasks.set j rest, rch := fan.rch ++ [v] })
    else none
  | some (Action.leave :: rest) =>
    match leave limiter with
    | none => none
    | some l1 => some (l1, { fan with tasks := fan.tasks.set j rest })

/-- One iteration of the receive loop of a fan-out: possible while fewer than
`size` values have been taken and `rch` holds a value. -/
def Fan.receive {F : Type} (fan : Fan F) : Option (Fan F) :=
  if fan.received.length < fan.size then
    match fan.rch with
    | [] => none
    | v :: vs => some { fan with rch := vs, received := fan.received ++ [v] }
  else none

/-- One step of the process under a Limiter of capacity `cap`; `none` when the
event cannot happen in this state. -/
def step {F : Type} (cap : Nat) (s : Sys F) : Event F → Option (Sys F)
  | Event.fanOut b i fromEpoch untilEpoch glob =>
    some { s with fans := s.fans ++
      [⟨dispatch b i fromEpoch untilEpoch glob, [], [], glob.Matches.length⟩] }
  | Event.run k j =>
    match s.fans[k]? with
    | none => none
    | some fan =>
      match fan.runTask cap s.limiter j with
      | none => none
      | some (l1, fan1) => some ⟨l1, s.fans.set k fan1⟩
  | Event.recv k =>
    match s.fans[k]? with
    | none => none
    | some fan =>
      match fan.receive with
      | none => none
      | some fan1 => some { s with fans := s.fans.set k fan1 }

/-- A run: the events happen one after the other. -/
def runEvents {F : Type} (cap : Nat) : Sys F → List (Event F) → Option (Sys F)
  | s, [] => some s
  | s, e :: es =>
    match step cap s e with
    | none => none
    | some s1 => runEvents cap s1 es

/-- Is the action a call of `Limiter.enter`? -/
def Action.isEnter {F : Type} : Action F → Bool
  | Action.enter => true
  | _ => false

/-- Is the action a call of `Limiter.leave`? -/
def Action.isLeave {F : Type} : Action F → Bool
  | Action.leave => true
  | _ => false

/-- A goroutine is between `Limiter.enter` and `Limiter.leave` when its
remaining code has the call of `leave` but no longer that of `enter`. -/
def holdsToken {F : Type} (code : List (Action F)) : Bool :=
  !code.any Action.isEnter && code.any Action.isLeave

/-- The sum of a measure `f` over all goroutines of the process. -/
def taskSum {F : Type} (f : List (Action F) → Nat) (s : Sys F) : Nat :=
  (s.fans.map fun fan => (fan.tasks.map f).sum).sum

/-- The number of goroutines in flight: between `Limiter.enter` and
`Limiter.leave`. -/
def inFlight {F : Type} (s : Sys F) : Nat :=
  taskSum (fun code => if holdsToken code then 1 else 0) s

/-- A piece of code is what remains of a render goroutine: an end piece of
the body `goFunc` for some match. -/
def Shaped {F : Type} (code : List (Action F)) : Prop :=
  ∃ (i : Nat) (render : Str → Str → Str → Option F) (f u : Str) (m : GlobMatch),
    code <:+ goFunc i render f u m

/-- Every goroutine of the process runs the body `goFunc`. -/
def AllShaped {F : Type} (s : Sys F) : Prop :=
  ∀ fan ∈ s.fans, ∀ code ∈ fan.tasks, Shaped code

/-- The values of a fan-out wherever they are: taken by the receive loop,
buffered in `rch`, or still to be sent. -/
def Fan.pool {F : Type} (fan : Fan F) : List (Option F) :=
  fan.received ++ fan.rch ++ (fan.tasks.map sentValues).flatten

/-- A fan-out keeps its values and its size. -/
def Fan.Keeps {F : Type} (fan fan1 : Fan F) : Prop :=
  fan1.pool.Perm fan.pool ∧ fan1.size = fan.size

/-- Is the event the start of a fan-out? -/
def Event.isFanOut {F : Type} : Event F → Bool
  | Event.fanOut _ _ _ _ _ => true
  | _ => false

/-- The work left in a state: the steps the goroutines have still to take and
the values the receive loops have still to take. -/
def remaining {F : Type} (s : Sys F) : Nat :=
  taskSum List.length s + (s.fans.map fun fan => fan.size - fan.received.length).sum

/-- Every receive loop has taken all its values. -/
def allReceived {F : Type} (s : Sys F) : Prop :=
  ∀ fan ∈ s.fans, fan.received.length = fan.size

/-- Every fan-out holds as many values as its size. -/
def AllFull {F : Type} (s : Sys F) : Prop :=
  ∀ fan ∈ s.fans, fan.pool.length = fan.size

/-- A state the process can be in: reached from the start by some events. -/
def Reachable {F : Type} (cap : Nat) (s : Sys F) : Prop :=
  ∃ evs : List (Event F), runEvents cap (Sys.init F) evs = some s

/-- Every goroutine started so far has finished. -/
def quiescent {F : Type} (s : Sys F) : Prop :=
  ∀ fan ∈ s.fans, ∀ code ∈ fan.tasks, code = []

/-! ## Specification side of the date claims -/

/-- The number a string of decimal digits denotes. -/
def decimalValue (s : Str) : Nat := s.foldl (fun a c => a * 10 + digitVal c) 0

/-- Seconds since the Unix epoch of 00:00 UTC on a calendar date. -/
def epochUTC (year month day : Int) : Int := dateUnix year month day 0 0

/-- Seconds since the Unix epoch of 00:00 local time on a calendar date, in a
zone `offset` seconds east of UTC. -/
def epochLocal (offset : Int) (year month day : Int) : Int :=
  dateUnix year month day 0 0 - offset

/-- The year, month and day an eight byte string `YYYYMMDD` denotes. -/
def ymdYear (s : Str) : Int := (decimalValue (s.take 4) : Int)

/-- The month of `YYYYMMDD`. -/
def ymdMonth (s : Str) : Int := (decimalValue ((s.drop 4).take 2) : Int)

/-- The day of `YYYYMMDD`. -/
def ymdDay (s : Str) : Int := (decimalValue (s.drop 6) : Int)

/-! ## Specification side of the render claims -/

/-- The FetchResponses the target at position `i` contributes: those of its
leaf matches whose Render call succeeded, when its Find call succeeded. -/
def successfulRenders {F : Type} (b : Backend F) (fromEpoch untilEpoch : Str)
    (i : Nat) (target : Str) : List F :=
  match b.Find i target with
  | none => []
  | some glob =>
    glob.Matches.enum.filterMap fun jm =>
      if jm.2.isLeaf then b.Render i jm.1 jm.2.path fromEpoch untilEpoch else none

/-- The Render calls the target at position `i` calls for: one per leaf match,
when its Find call succeeded. -/
def expectedCalls {F : Type} (b : Backend F) (fromEpoch untilEpoch : Str)
    (i : Nat) (target : Str) : List RenderCall :=
  match b.Find i target with
  | none => []
  | some glob =>
    (glob.Matches.filter fun m => m.isLeaf).map fun m =>
      ⟨i, m.path, fromEpoch, untilEpoch⟩

/-- The `from` value of a request after normalisation. -/
def Request.fromEpoch (r : Request) (clock : Clock) : Str :=
  dateParamToEpoch r.fromParam (clock.nowFrom - 24 * 3600)

/-- The `until` value of a request after normalisation. -/
def Request.untilEpoch (r : Request) (clock : Clock) : Str :=
  dateParamToEpoch r.untilParam clock.nowUntil

/-! ## A concrete run -/

/-- A backend for one target `host.cpu.*`: find yields the matches `a` (leaf),
`b` (leaf) and `c` (no leaf); render succeeds for `a` and fails for `b`.  The
payload is a number. -/
def exampleBackend : Backend Nat where
  Find := fun _ target =>
    if target = "host.cpu.*".toList then
      some ⟨"host.cpu.*".toList,
        [⟨"a".toList, true⟩, ⟨"b".toList, true⟩, ⟨"c".toList, false⟩]⟩
    else none
  Render := fun _ _ metric _ _ => if metric = "a".toList then some 1 else none

/-- A scheduler under which the goroutines of a target finish in reverse
order of their start. -/
def reverseScheduler (F : Type) : Scheduler F where
  order := fun _ l => l.reverse
  perm := fun _ l => List.reverse_perm l

/-- A clock that reads 1704153600 both times. -/
def exampleClock : Clock := ⟨1704153600, 1704153600⟩

/-- The request `target=host.cpu.*` without `from` and `until`. -/
def exampleRequest : Request := ⟨["host.cpu.*".toList], [], []⟩

/-- The request `target=nosuch&target=host.cpu.*`, whose first find fails. -/
def exampleRequest2 : Request := ⟨["nosuch".toList, "host.cpu.*".toList], [], []⟩

/-- An encoding of the number payload of the example. -/
def exampleEnc (n : Nat) : Str := Nat.toDigits 10 n

/-- A body is a JSON array when it opens with a bracket. -/
def isJsonArray (body : Str) : Bool := body.head? == some '['

/-- The events that start two fan-outs of the example backend over a Limiter
of capacity 1 and run all six goroutines and both receive loops to the end. -/
def exampleEvents : List (Event Nat) :=
  [ Event.fanOut exampleBackend 0 [] []
      ⟨[], [⟨"a".toList, true⟩, ⟨"b".toList, true⟩, ⟨"c".toList, false⟩]⟩,
    Event.run 0 1, Event.run 0 1, Event.run 0 1,
    Event.fanOut exampleBackend 1 [] []
      ⟨[], [⟨"a".toList, true⟩, ⟨"b".toList, true⟩, ⟨"c".toList, false⟩]⟩,
    Event.recv 0, Event.run 0 1,
    Event.run 1 2, Event.run 1 2, Event.run 1 2,
    Event.run 0 0, Event.run 0 0, Event.run 0 0, Event.run 0 0,
    Event.run 0 2, Event.run 0 2, Event.recv 0, Event.run 0 2, Event.recv 0,
    Event.run 1 0, Event.run 1 0, Event.run 1 0, Event.run 1 0,
    Event.run 1 1, Event.run 1 1, Event.run 1 1, Event.run 1 1,
    Event.recv 1, Event.recv 1, Event.recv 1 ]

/-- The state after the first two of `exampleEvents`: the goroutine for `b`
has entered the Limiter of capacity 1, the other two have not started. -/
def exampleStateInFlight : Sys Nat :=
  ⟨1, [⟨[ [Action.enter, Action.render ⟨0, "a".toList, [], []⟩, Action.send (some 1),
            Action.leave],
          [Action.render ⟨0, "b".toList, [], []⟩, Action.send none, Action.leave],
          [Action.enter, Action.send none, Action.leave] ],
        [], [], 3⟩]⟩

/-- The state after all of `exampleEvents`: every goroutine has finished and
both receive loops have taken their three values. -/
def exampleStateDone : Sys Nat :=
  ⟨0, [⟨[[], [], []], [], [none, some 1, none], 3⟩,
       ⟨[[], [], []], [], [none, some 1, none], 3⟩]⟩

/-! ## Lemmas on strconv -/

theorem digitVal_le_of_isDigit {c : Char} (h : isDigit c = true) : digitVal c ≤ 9 := by
  simp only [isDigit, Bool.and_eq_true, decide_eq_true_eq] at h
  unfold digitVal
  omega

theorem isDigit_underscore : isDigit '_' = false := by decide

theorem isDigit_space : isDigit ' ' = false := by decide

theorem parseUintLoop_isDigit (cs : Str) :
    ∀ (n v : Nat), parseUintLoop cs n = some v → ∀ c ∈ cs, isDigit c = true := by
  induction cs with
  | nil => intro n v _ c hc; simp at hc
  | cons a as ih =>
    intro n v h c hc
    unfold parseUintLoop at h
    by_cases ha : isDigit a = true
    · simp only [ha, Bool.not_true, Bool.false_eq_true, if_false] at h
      split at h
      · simp at h
      · split at h
        · simp at h
        · rcases List.mem_cons.mp hc with rfl | hmem
          · exact ha
          · exact ih _ _ h c hmem
    · simp [ha] at h

theorem ParseUint_isDigit {s : Str} {v : Nat} (h : ParseUint s = some v) :
    ∀ c ∈ s, isDigit c = true := by
  unfold ParseUint at h
  split at h
  · simp at h
  · exact parseUintLoop_isDigit s 0 v h

/-- A string `Atoi` accepts consists of digits and signs only. -/
theorem Atoi_chars {s : Str} (h : (Atoi s).isSome = true) :
    ∀ c ∈ s, isDigit c = true ∨ c = '+' ∨ c = '-' := by
  unfold Atoi ParseInt at h
  cases s with
  | nil => simp at h
  | cons a as =>
    simp only at h
    cases hu : ParseUint (if a = '+' ∨ a = '-' then as else a :: as) with
    | none => rw [hu] at h; simp at h
    | some un =>
      have hd := ParseUint_isDigit hu
      intro c hc
      by_cases hs : a = '+' ∨ a = '-'
      · rw [if_pos hs] at hd
        rcases List.mem_cons.mp hc with rfl | hmem
        · exact Or.inr hs
        · exact Or.inl (hd c hmem)
      · rw [if_neg hs] at hd
        exact Or.inl (hd c hc)

theorem Atoi_none_of_mem {s : Str} {c : Char} (hc : c ∈ s) (hd : isDigit c = false)
    (hp : c ≠ '+') (hm : c ≠ '-') : Atoi s = none := by
  cases h : Atoi s with
  | none => rfl
  | some v =>
    have := Atoi_chars (s := s) (by rw [h]; rfl) c hc
    rcases this with h1 | h1 | h1
    · rw [hd] at h1; exact absurd h1 (by simp)
    · exact absurd h1 hp
    · exact absurd h1 hm

theorem foldl_decimal_ge (cs : Str) :
    ∀ n : Nat, n ≤ cs.foldl (fun a c => a * 10 + digitVal c) n := by
  induction cs with
  | nil => intro n; simp
  | cons a as ih =>
    intro n
    simp only [List.foldl_cons]
    have := ih (n * 10 + digitVal a)
    omega

theorem parseUintLoop_of_digits (cs : Str) :
    ∀ n : Nat, (∀ c ∈ cs, isDigit c = true) →
      cs.foldl (fun a c => a * 10 + digitVal c) n < 2 ^ 64 →
      parseUintLoop cs n = some (cs.foldl (fun a c => a * 10 + digitVal c) n) := by
  induction cs with
  | nil => intro n _ _; rfl
  | cons a as ih =>
    intro n hd hlt
    have ha : isDigit a = true := hd a (List.mem_cons_self _ _)
    have has : ∀ c ∈ as, isDigit c = true := fun c hc => hd c (List.mem_cons_of_mem _ hc)
    simp only [List.foldl_cons] at hlt ⊢
    have hge := foldl_decimal_ge as (n * 10 + digitVal a)
    have h9 := digitVal_le_of_isDigit ha
    have hsmall : n * 10 + digitVal a < 2 ^ 64 := lt_of_le_of_lt hge hlt
    have hmod : (n * 10 + digitVal a) % 2 ^ 64 = n * 10 + digitVal a := Nat.mod_eq_of_lt hsmall
    unfold parseUintLoop
    simp only [ha, Bool.not_true, Bool.false_eq_true, if_false, hmod]
    have hc : ¬ cutoff ≤ n := by
      simp only [cutoff, maxUint64]
      norm_num at hsmall ⊢
      omega
    have hn : ¬ (n * 10 + digitVal a < n * 10 ∨ maxUint64 < n * 10 + digitVal a) := by
      simp only [maxUint64]
      norm_num at hsmall ⊢
      omega
    rw [if_neg hc, if_neg hn]
    exact ih _ has hlt

/-- On a non-empty string of digits whose value fits `int`, `Atoi` succeeds. -/
theorem Atoi_of_digits {s : Str} (hne : s ≠ []) (hd : ∀ c ∈ s, isDigit c = true)
    (hv : decimalValue s < 2 ^ 63) : Atoi s = some (decimalValue s : Int) := by
  cases s with
  | nil => exact absurd rfl hne
  | cons a as =>
    have ha : isDigit a = true := hd a (List.mem_cons_self _ _)
    have hplus : a ≠ '+' := by rintro rfl; revert ha; decide
    have hminus : a ≠ '-' := by rintro rfl; revert ha; decide
    have hlt : (a :: as).foldl (fun x c => x * 10 + digitVal c) 0 < 2 ^ 64 := by
      have : decimalValue (a :: as) < 2 ^ 64 := lt_trans hv (by norm_num)
      exact this
    have hloop := parseUintLoop_of_digits (a :: as) 0 hd hlt
    have hnot : ¬ (2 : Nat) ^ 63 ≤ decimalValue (a :: as) := Nat.not_le.mpr hv
    unfold Atoi ParseInt
    simp only [hplus, hminus, or_self, if_false, ParseUint, reduceCtorEq, decide_False,
      Bool.not_false, Bool.true_and, Bool.false_and, Bool.false_eq_true]
    rw [hloop]
    simp only [decide_eq_true_eq]
    rw [if_neg (by exact hnot)]
    rfl

/-! ## dateParamToEpoch: raw epochs -/

theorem dateParamToEpoch_of_Atoi {s : Str} (d : Int) (hlen : 8 < s.length)
    (h : (Atoi s).isSome = true) : dateParamToEpoch s d = s := by
  have hne : s ≠ [] := by
    rintro rfl
    simp at hlen
  unfold dateParamToEpoch
  rw [if_neg hne, if_pos ⟨h, hlen⟩]

/-- Claim C7 as stated fails: the 19 digit string `9223372036854775808`
(2^63) is made of decimal digits only and is longer than 8 bytes, yet `Atoi`
rejects it as out of range and `dateParamToEpoch` returns the default. -/
theorem dateParamToEpoch_long_digits_counterexample :
    ¬ ∀ (d : Int) (s : Str), (∀ c ∈ s, isDigit c = true) → 8 < s.length →
        dateParamToEpoch s d = s := by
  intro h
  have h1 := h 0 "9223372036854775808".toList (by decide) (by decide)
  revert h1
  decide

/-- Claim C7, amended: for every default `d` and every string `s` of decimal
digits only, longer than 8 bytes, whose value fits `int` (is below 2^63),
`dateParamToEpoch s d` returns `s` unchanged. -/
theorem dateParamToEpoch_epoch_passthrough (d : Int) (s : Str)
    (hdig : ∀ c ∈ s, isDigit c = true) (hlen : 8 < s.length)
    (hfit : decimalValue s < 2 ^ 63) : dateParamToEpoch s d = s := by
  have hne : s ≠ [] := by
    rintro rfl
    simp at hlen
  have hA := Atoi_of_digits hne hdig hfit
  exact dateParamToEpoch_of_Atoi d hlen (by rw [hA]; rfl)

theorem dateParamToEpoch_epoch_passthrough_witness :
    dateParamToEpoch "1704153600".toList 0 = "1704153600".toList :=
  dateParamToEpoch_epoch_passthrough 0 "1704153600".toList (by decide) (by decide)
    (by decide)

/-! ## Lemmas on time.Parse -/

theorem getnum_two_digits {c0 c1 : Char} (rest : Str) (fixed : Bool)
    (h0 : isDigit c0 = true) (h1 : isDigit c1 = true) :
    getnum (c0 :: c1 :: rest) fixed
      = some ((digitVal c0 : Int) * 10 + (digitVal c1 : Int), rest) := by
  simp [getnum, h0, h1]

theorem foldl_decimal_lt (cs : Str) :
    ∀ n : Nat, (∀ c ∈ cs, isDigit c = true) →
      cs.foldl (fun a c => a * 10 + digitVal c) n < (n + 1) * 10 ^ cs.length := by
  induction cs with
  | nil => intro n _; simp
  | cons a as ih =>
    intro n hd
    have ha := digitVal_le_of_isDigit (hd a (List.mem_cons_self _ _))
    have := ih (n * 10 + digitVal a) (fun c hc => hd c (List.mem_cons_of_mem _ hc))
    simp only [List.foldl_cons, List.length_cons]
    calc as.foldl (fun a c => a * 10 + digitVal c) (n * 10 + digitVal a)
        < (n * 10 + digitVal a + 1) * 10 ^ as.length := this
      _ ≤ ((n + 1) * 10) * 10 ^ as.length := Nat.mul_le_mul_right _ (by omega)
      _ = (n + 1) * 10 ^ (as.length + 1) := by rw [pow_succ]; ring

theorem leadingInt_of_digits (cs : Str) :
    ∀ x : Nat, (∀ c ∈ cs, isDigit c = true) →
      cs.foldl (fun a c => a * 10 + digitVal c) x ≤ 2 ^ 63 →
      leadingInt cs x = some (cs.foldl (fun a c => a * 10 + digitVal c) x, []) := by
  induction cs with
  | nil => intro x _ _; rfl
  | cons a as ih =>
    intro x hd hle
    have ha : isDigit a = true := hd a (List.mem_cons_self _ _)
    simp only [List.foldl_cons] at hle ⊢
    have hge := foldl_decimal_ge as (x * 10 + digitVal a)
    have h1 : x * 10 + digitVal a ≤ 2 ^ 63 := le_trans hge hle
    unfold leadingInt
    simp only [ha, Bool.not_true, Bool.false_eq_true, if_false]
    have hc : ¬ (2 ^ 63 / 10 < x) := by
      norm_num at h1 ⊢
      omega
    rw [if_neg hc, if_neg (Nat.not_lt.mpr h1)]
    exact ih _ (fun c hc => hd c (List.mem_cons_of_mem _ hc)) hle

theorem timeAtoi_of_digits {s : Str} (hd : ∀ c ∈ s, isDigit c = true)
    (hlen : s.length ≤ 18) : timeAtoi s = some (decimalValue s : Int) := by
  have hlt := foldl_decimal_lt s 0 hd
  have hpow : (10 : Nat) ^ s.length ≤ 10 ^ 18 := Nat.pow_le_pow_right (by norm_num) hlen
  have hle : s.foldl (fun a c => a * 10 + digitVal c) 0 ≤ 2 ^ 63 := by
    have : (10 : Nat) ^ 18 ≤ 2 ^ 63 := by norm_num
    omega
  have hli := leadingInt_of_digits s 0 hd hle
  cases s with
  | nil => rfl
  | cons a as =>
    have ha : isDigit a = true := hd a (List.mem_cons_self _ _)
    have hplus : a ≠ '+' := by rintro rfl; revert ha; decide
    have hminus : a ≠ '-' := by rintro rfl; revert ha; decide
    unfold timeAtoi
    simp only [hplus, hminus, or_self, if_false, decide_False, hli]
    simp [decimalValue]


theorem isDigit_ne {c p : Char} (h : isDigit c = true) (hp : isDigit p = false) : c ≠ p := by
  rintro rfl
  rw [h] at hp
  exact absurd hp (by simp)

theorem containsUnderscore_of_digits {s : Str} (hd : ∀ c ∈ s, isDigit c = true) :
    containsUnderscore s = false := by
  unfold containsUnderscore
  cases h : s.contains '_' with
  | false => rfl
  | true =>
    have hmem : '_' ∈ s := by simpa using h
    have := hd _ hmem
    rw [isDigit_underscore] at this
    exact absurd this (by simp)

theorem skip_digit_none {c p : Char} (rest : Str) (h : isDigit c = true) (hp : isDigit p = false) :
    skip (c :: rest) p = none := by
  have hne := isDigit_ne h hp
  have hsp : c ≠ ' ' := isDigit_ne h isDigit_space
  unfold skip
  split <;> simp [hne, hsp]

/-- A value that starts with three digits never matches the layout
`15:04 20060102`: after the hour a colon is required. -/
theorem timeParseUnix_hm_digits {c0 c1 c2 : Char} (rest : Str)
    (h0 : isDigit c0 = true) (h1 : isDigit c1 = true) (h2 : isDigit c2 = true) :
    timeParseUnix (timeFormats.getD 0 []) (c0 :: c1 :: c2 :: rest) = none := by
  have hp : parseItems (timeFormats.getD 0 []) (c0 :: c1 :: c2 :: rest) {} = none := by
    simp only [timeFormats, List.getD_cons_zero, parseItems, parseStd,
      getnum_two_digits _ _ h0 h1]
    by_cases hr : ((digitVal c0 : Int) * 10 + (digitVal c1 : Int) < 0
        ∨ 24 ≤ (digitVal c0 : Int) * 10 + (digitVal c1 : Int))
    · rw [if_pos hr]
    · rw [if_neg hr]
      simp only [skip_digit_none rest h2 (by decide : isDigit ':' = false)]
  unfold timeParseUnix
  rw [hp]


/-- An eight digit value that denotes a valid date matches the layout
`20060102`. -/
theorem timeParseUnix_ymd_digits (s : Str) (hlen : s.length = 8)
    (hdig : ∀ c ∈ s, isDigit c = true)
    (hm1 : 1 ≤ ymdMonth s) (hm2 : ymdMonth s ≤ 12)
    (hd1 : 1 ≤ ymdDay s) (hd2 : ymdDay s ≤ daysIn (ymdMonth s) (ymdYear s)) :
    timeParseUnix (timeFormats.getD 1 []) s
      = some (epochUTC (ymdYear s) (ymdMonth s) (ymdDay s)) := by
  match s, hlen with
  | [c0, c1, c2, c3, c4, c5, c6, c7], _ =>
    have h0 : isDigit c0 = true := hdig c0 (by simp)
    have h1 : isDigit c1 = true := hdig c1 (by simp)
    have h2 : isDigit c2 = true := hdig c2 (by simp)
    have h3 : isDigit c3 = true := hdig c3 (by simp)
    have h4 : isDigit c4 = true := hdig c4 (by simp)
    have h5 : isDigit c5 = true := hdig c5 (by simp)
    have h6 : isDigit c6 = true := hdig c6 (by simp)
    have h7 : isDigit c7 = true := hdig c7 (by simp)
    have hy : timeAtoi [c0, c1, c2, c3] = some (decimalValue [c0, c1, c2, c3] : Int) :=
      timeAtoi_of_digits (by intro c hc; exact hdig c (by simp at hc ⊢; tauto)) (by simp)
    have hmv : ymdMonth [c0, c1, c2, c3, c4, c5, c6, c7]
        = (digitVal c4 : Int) * 10 + (digitVal c5 : Int) := by
      simp [ymdMonth, decimalValue]
    have hdv : ymdDay [c0, c1, c2, c3, c4, c5, c6, c7]
        = (digitVal c6 : Int) * 10 + (digitVal c7 : Int) := by
      simp [ymdDay, decimalValue]
    have hyv : ymdYear [c0, c1, c2, c3, c4, c5, c6, c7]
        = (decimalValue [c0, c1, c2, c3] : Int) := by
      simp [ymdYear]
    rw [hmv] at hm1 hm2 hd2
    rw [hdv] at hd1 hd2
    rw [hyv] at hd2
    rw [hmv, hdv, hyv]
    have hmr : ¬ ((digitVal c4 : Int) * 10 + (digitVal c5 : Int) ≤ 0
        ∨ 12 < (digitVal c4 : Int) * 10 + (digitVal c5 : Int)) := by omega
    have hp : parseItems (timeFormats.getD 1 []) [c0, c1, c2, c3, c4, c5, c6, c7] {}
        = some { year := (decimalValue [c0, c1, c2, c3] : Int),
                 month := (digitVal c4 : Int) * 10 + (digitVal c5 : Int),
                 day := (digitVal c6 : Int) * 10 + (digitVal c7 : Int),
                 hour := 0, min := 0 } := by
      simp only [timeFormats, List.getD_cons_succ, List.getD_cons_zero, parseItems, parseStd]
      have hguard : ¬ (([c0, c1, c2, c3, c4, c5, c6, c7] : Str).length < 4
          ∨ (!isDigit (([c0, c1, c2, c3, c4, c5, c6, c7] : Str).headD ' ')) = true) := by
        simp [h0]
      rw [if_neg hguard]
      have hT : List.take 4 [c0, c1, c2, c3, c4, c5, c6, c7] = [c0, c1, c2, c3] := rfl
      have hD : List.drop 4 [c0, c1, c2, c3, c4, c5, c6, c7] = [c4, c5, c6, c7] := rfl
      rw [hT, hD, hy]
      simp only [getnum_two_digits _ _ h4 h5, if_neg hmr, getnum_two_digits _ _ h6 h7]
      simp
    unfold timeParseUnix
    rw [hp]
    have hmne : ¬ ((digitVal c4 : Int) * 10 + (digitVal c5 : Int) = -1) := by omega
    have hdne : ¬ ((digitVal c6 : Int) * 10 + (digitVal c7 : Int) = -1) := by omega
    simp only [if_neg hmne, if_neg hdne]
    rw [if_neg (by omega)]
    rfl


/-! ## dateParamToEpoch: dates -/

theorem tryFormats_timeFormats (s : Str) (d : Int) :
    tryFormats timeFormats s d
      = match timeParseUnix (timeFormats.getD 0 []) s with
        | some t => Itoa t
        | none =>
          match timeParseUnix (timeFormats.getD 1 []) s with
          | some t => Itoa t
          | none =>
            match timeParseUnix (timeFormats.getD 2 []) s with
            | some t => Itoa t
            | none => Itoa d := by
  rfl

theorem dateParamToEpoch_eight_digits (d : Int) (s : Str) (hlen : s.length = 8)
    (hdig : ∀ c ∈ s, isDigit c = true)
    (hm1 : 1 ≤ ymdMonth s) (hm2 : ymdMonth s ≤ 12)
    (hd1 : 1 ≤ ymdDay s) (hd2 : ymdDay s ≤ daysIn (ymdMonth s) (ymdYear s)) :
    dateParamToEpoch s d = Itoa (epochUTC (ymdYear s) (ymdMonth s) (ymdDay s)) := by
  have hne : s ≠ [] := by
    rintro rfl
    simp at hlen
  have hnot : ¬ ((Atoi s).isSome = true ∧ 8 < s.length) := by
    rintro ⟨_, h8⟩
    omega
  have hfirst : timeParseUnix (timeFormats.getD 0 []) s = none := by
    match s, hlen with
    | [c0, c1, c2, c3, c4, c5, c6, c7], _ =>
      exact timeParseUnix_hm_digits _ (hdig c0 (by simp)) (hdig c1 (by simp)) (hdig c2 (by simp))
  have hsecond := timeParseUnix_ymd_digits s hlen hdig hm1 hm2 hd1 hd2
  unfold dateParamToEpoch
  rw [if_neg hne, if_neg hnot]
  simp only [containsUnderscore_of_digits hdig, Bool.false_eq_true, if_false]
  rw [tryFormats_timeFormats, hfirst, hsecond]

/-- Claim C8 as stated fails: in a zone one hour east of UTC, 00:00 local time
on 2024-01-02 is the epoch 1704150000, while `dateParamToEpoch` returns
1704153600, the epoch of 00:00 UTC (`time.Parse` yields UTC when the layout has
no zone). -/
theorem dateParamToEpoch_local_midnight_counterexample :
    ¬ ∀ (offset d : Int) (s : Str), s.length = 8 → (∀ c ∈ s, isDigit c = true) →
        1 ≤ ymdMonth s → ymdMonth s ≤ 12 → 1 ≤ ymdDay s →
        ymdDay s ≤ daysIn (ymdMonth s) (ymdYear s) →
        dateParamToEpoch s d = Itoa (epochLocal offset (ymdYear s) (ymdMonth s) (ymdDay s)) := by
  intro h
  have h1 := h 3600 0 "20240102".toList (by decide) (by decide) (by decide) (by decide)
    (by decide) (by decide)
  revert h1
  decide

/-- Claim C8, amended: for every default `d` and every string `s` of exactly
8 decimal digits that denotes a valid calendar date `YYYYMMDD`,
`dateParamToEpoch s d` is not treated as a raw epoch but parsed as a date: it
is the decimal epoch-seconds of 00:00 UTC on that date, regardless of `d`. -/
theorem dateParamToEpoch_ymd_is_utc_midnight (d : Int) (s : Str) (hlen : s.length = 8)
    (hdig : ∀ c ∈ s, isDigit c = true)
    (hm1 : 1 ≤ ymdMonth s) (hm2 : ymdMonth s ≤ 12)
    (hd1 : 1 ≤ ymdDay s) (hd2 : ymdDay s ≤ daysIn (ymdMonth s) (ymdYear s)) :
    dateParamToEpoch s d = Itoa (epochUTC (ymdYear s) (ymdMonth s) (ymdDay s)) :=
  dateParamToEpoch_eight_digits d s hlen hdig hm1 hm2 hd1 hd2

theorem dateParamToEpoch_ymd_is_utc_midnight_witness :
    dateParamToEpoch "20240102".toList 12345 = Itoa (epochUTC 2024 1 2)
      ∧ Itoa (epochUTC 2024 1 2) = "1704153600".toList :=
  ⟨dateParamToEpoch_ymd_is_utc_midnight 12345 "20240102".toList (by decide) (by decide)
    (by decide) (by decide) (by decide) (by decide), by decide⟩

/-! ## dateParamToEpoch: underscores -/

theorem replaceFirstUnderscore_of_not_mem (s : Str) (h : '_' ∉ s) :
    replaceFirstUnderscore s = s := by
  induction s with
  | nil => rfl
  | cons a as ih =>
    have ha : a ≠ '_' := fun e => h (e ▸ List.mem_cons_self _ _)
    have has : '_' ∉ as := fun e => h (List.mem_cons_of_mem _ e)
    simp [replaceFirstUnderscore, ha, ih has]

theorem space_mem_replaceFirstUnderscore (s : Str) (h : '_' ∈ s) :
    ' ' ∈ replaceFirstUnderscore s := by
  induction s with
  | nil => simp at h
  | cons a as ih =>
    unfold replaceFirstUnderscore
    by_cases ha : a = '_'
    · simp [ha]
    · rw [if_neg ha]
      rcases List.mem_cons.mp h with e | hmem
      · exact absurd e.symm ha
      · exact List.mem_cons_of_mem _ (ih hmem)

theorem count_replaceFirstUnderscore (s : Str) (h : '_' ∈ s) :
    (replaceFirstUnderscore s).count '_' + 1 = s.count '_' := by
  induction s with
  | nil => simp at h
  | cons a as ih =>
    unfold replaceFirstUnderscore
    by_cases ha : a = '_'
    · subst ha
      simp [List.count_cons]
    · rw [if_neg ha]
      rcases List.mem_cons.mp h with e | hmem
      · exact absurd e.symm ha
      · have := ih hmem
        simp only [List.count_cons, beq_iff_eq, ha, if_false] at this ⊢
        omega

/-- The string handed to the layouts is the input with its first underscore
replaced, whether or not it has one. -/
theorem underscore_step (s : Str) :
    (if containsUnderscore s = true then replaceFirstUnderscore s else s)
      = replaceFirstUnderscore s := by
  by_cases h : containsUnderscore s = true
  · rw [if_pos h]
  · rw [if_neg h]
    have : '_' ∉ s := by
      simpa [containsUnderscore] using h
    exact (replaceFirstUnderscore_of_not_mem s this).symm

theorem dateParamToEpoch_of_not_epoch (s : Str) (d : Int) (hne : s ≠ [])
    (h : ¬ ((Atoi s).isSome = true ∧ 8 < s.length)) :
    dateParamToEpoch s d = tryFormats timeFormats (replaceFirstUnderscore s) d := by
  unfold dateParamToEpoch
  rw [if_neg hne, if_neg h]
  simp only [underscore_step]

theorem dateParamToEpoch_one_underscore (s : Str) (d : Int) (h : s.count '_' ≤ 1) :
    dateParamToEpoch s d = dateParamToEpoch (replaceFirstUnderscore s) d := by
  by_cases hmem : '_' ∈ s
  · have hne : s ≠ [] := by
      rintro rfl
      simp at hmem
    have hA : Atoi s = none := Atoi_none_of_mem hmem isDigit_underscore (by decide) (by decide)
    have hsp := space_mem_replaceFirstUnderscore s hmem
    have hne2 : replaceFirstUnderscore s ≠ [] := by
      intro e
      rw [e] at hsp
      simp at hsp
    have hA2 : Atoi (replaceFirstUnderscore s) = none :=
      Atoi_none_of_mem hsp isDigit_space (by decide) (by decide)
    have hcnt := count_replaceFirstUnderscore s hmem
    have hno : '_' ∉ replaceFirstUnderscore s := by
      intro hc
      have := List.count_pos_iff.mpr hc
      omega
    rw [dateParamToEpoch_of_not_epoch s d hne (by rw [hA]; simp),
      dateParamToEpoch_of_not_epoch _ d hne2 (by rw [hA2]; simp),
      replaceFirstUnderscore_of_not_mem _ hno]
  · rw [replaceFirstUnderscore_of_not_mem s hmem]

/-- Claim C9 as stated fails: for `15:04__20240102` only the first of the two
underscores is replaced, the value `15:04 _20240102` matches no layout and the
default is returned; its replaced form `15:04 _20240102`, passed as input, has
its own first underscore replaced and parses as a date. -/
theorem dateParamToEpoch_underscore_counterexample :
    ¬ ∀ (s : Str) (d : Int),
        dateParamToEpoch s d = dateParamToEpoch (replaceFirstUnderscore s) d := by
  intro h
  have h1 := h "15:04__20240102".toList 0
  revert h1
  decide

/-- Claim C9, amended: for every string `s` with at most one underscore and
every default `d`, `dateParamToEpoch s d` equals `dateParamToEpoch s' d`, where
`s'` is `s` with its first underscore replaced by a space (`s' = s` when `s` has
no underscore). -/
theorem dateParamToEpoch_underscore_space (s : Str) (d : Int) (h : s.count '_' ≤ 1) :
    dateParamToEpoch s d = dateParamToEpoch (replaceFirstUnderscore s) d :=
  dateParamToEpoch_one_underscore s d h

theorem dateParamToEpoch_underscore_space_witness :
    dateParamToEpoch "15:04_20240102".toList 7 = dateParamToEpoch "15:04 20240102".toList 7
      ∧ dateParamToEpoch "15:04 20240102".toList 7 = "1704207840".toList :=
  ⟨dateParamToEpoch_underscore_space "15:04_20240102".toList 7 (by decide), by decide⟩

/-! ## dateParamToEpoch: the default -/

/-- Claim C10: `dateParamToEpoch` falls back to the default whenever the input
yields no date.  For every default `d` and every `s` that is empty, or that is
not an integer string of more than 8 bytes and, after its first underscore is
replaced by a space, matches none of the three layouts of `timeFormats`,
`dateParamToEpoch s d` is the decimal rendering of `d`. -/
theorem dateParamToEpoch_default (s : Str) (d : Int)
    (h : s = [] ∨ (¬ ((Atoi s).isSome = true ∧ 8 < s.length)
      ∧ ∀ format ∈ timeFormats, timeParseUnix format (replaceFirstUnderscore s) = none)) :
    dateParamToEpoch s d = Itoa d := by
  rcases h with rfl | ⟨hint, hfmt⟩
  · rfl
  · by_cases hne : s = []
    · subst hne
      rfl
    · rw [dateParamToEpoch_of_not_epoch s d hne hint, tryFormats_timeFormats]
      have h0 := hfmt (timeFormats.getD 0 []) (by decide)
      have h1 := hfmt (timeFormats.getD 1 []) (by decide)
      have h2 := hfmt (timeFormats.getD 2 []) (by decide)
      rw [h0, h1, h2]

theorem dateParamToEpoch_default_witness :
    dateParamToEpoch "yesterday".toList (-86400) = "-86400".toList :=
  dateParamToEpoch_default "yesterday".toList (-86400) (Or.inr ⟨by decide, by decide⟩)


/-! ## The render goroutine and the receive loop -/

theorem sentValues_goFunc {F : Type} (i : Nat) (render : Str → Str → Str → Option F)
    (f u : Str) (m : GlobMatch) :
    sentValues (goFunc i render f u m) = [if m.isLeaf then render m.path f u else none] := by
  unfold goFunc
  cases hl : m.isLeaf
  · simp [sentValues]
  · cases hr : render m.path f u <;> simp [sentValues, hr]

theorem renderCalls_goFunc {F : Type} (i : Nat) (render : Str → Str → Str → Option F)
    (f u : Str) (m : GlobMatch) :
    renderCalls (goFunc i render f u m) = if m.isLeaf then [⟨i, m.path, f, u⟩] else [] := by
  unfold goFunc
  cases hl : m.isLeaf
  · simp [renderCalls]
  · cases hr : render m.path f u <;> simp [renderCalls, hr]

theorem collect_elems {F : Type} (l : List (Option F)) :
    ∀ results : Slice F, (collect results l).elems = results.elems ++ l.filterMap id := by
  induction l with
  | nil => intro results; simp [collect]
  | cons a as ih =>
    intro results
    cases a with
    | none => simp [collect, ih]
    | some r =>
      cases results with
      | none =>
        simp only [collect, Slice.append]
        rw [ih]
        simp [Slice.elems]
      | some xs =>
        simp only [collect, Slice.append]
        rw [ih]
        simp [Slice.elems]


theorem flatten_map_singleton {α β : Type} (g : α → β) (l : List α) :
    (l.map fun a => [g a]).flatten = l.map g := by
  induction l with
  | nil => rfl
  | cons a as ih => simp [ih]

/-- The values the goroutines of one target send: one per match, the Render
outcome for a leaf and nil otherwise. -/
theorem sent_dispatch {F : Type} (b : Backend F) (i : Nat) (f u : Str) (glob : GlobResponse) :
    ((dispatch b i f u glob).map sentValues).flatten
      = glob.Matches.enum.map fun jm =>
          if jm.2.isLeaf then b.Render i jm.1 jm.2.path f u else none := by
  unfold dispatch
  rw [List.map_map]
  have : (sentValues ∘ fun jm : Nat × GlobMatch => goFunc i (b.Render i jm.1) f u jm.2)
      = fun jm => [if jm.2.isLeaf then b.Render i jm.1 jm.2.path f u else none] := by
    funext jm
    exact sentValues_goFunc i (b.Render i jm.1) f u jm.2
  rw [this, flatten_map_singleton]

theorem flatten_map_calls (i : Nat) (f u : Str) (ms : List GlobMatch) :
    ∀ k : Nat, ((ms.enumFrom k).map fun jm : Nat × GlobMatch =>
        if jm.2.isLeaf then [(⟨i, jm.2.path, f, u⟩ : RenderCall)] else []).flatten
      = (ms.filter fun m => m.isLeaf).map fun m => ⟨i, m.path, f, u⟩ := by
  induction ms with
  | nil => intro k; rfl
  | cons m rest ih =>
    intro k
    cases hl : m.isLeaf <;> simp [List.enumFrom, hl, ih]

/-- The Render calls the goroutines of one target issue: one per leaf match. -/
theorem calls_dispatch {F : Type} (b : Backend F) (i : Nat) (f u : Str) (glob : GlobResponse) :
    ((dispatch b i f u glob).map renderCalls).flatten
      = (glob.Matches.filter fun m => m.isLeaf).map fun m => ⟨i, m.path, f, u⟩ := by
  unfold dispatch
  rw [List.map_map]
  have : (renderCalls ∘ fun jm : Nat × GlobMatch => goFunc i (b.Render i jm.1) f u jm.2)
      = fun jm => if jm.2.isLeaf then [(⟨i, jm.2.path, f, u⟩ : RenderCall)] else [] := by
    funext jm
    exact renderCalls_goFunc i (b.Render i jm.1) f u jm.2
  rw [this]
  exact flatten_map_calls i f u glob.Matches 0

/-- The receive loop takes every value the goroutines of the target send: the
arrivals are as many as the matches. -/
theorem arrivals_take {F : Type} (b : Backend F) (sched : Scheduler F) (i : Nat) (f u : Str)
    (glob : GlobResponse) :
    (sched.order i ((dispatch b i f u glob).map sentValues).flatten).take glob.Matches.length
      = sched.order i ((dispatch b i f u glob).map sentValues).flatten := by
  apply List.take_of_length_le
  rw [(sched.perm i _).length_eq, sent_dispatch]
  simp

/-- The non-nil arrivals of one target are a rearrangement of its successful
renders. -/
theorem arrivals_perm {F : Type} (b : Backend F) (sched : Scheduler F) (i : Nat) (f u : Str)
    (target : Str) (glob : GlobResponse) (hfind : b.Find i target = some glob) :
    (((sched.order i ((dispatch b i f u glob).map sentValues).flatten).take
        glob.Matches.length).filterMap id).Perm (successfulRenders b f u i target) := by
  rw [arrivals_take]
  have h1 := (sched.perm i ((dispatch b i f u glob).map sentValues).flatten).filterMap id
  have h2 : (((dispatch b i f u glob).map sentValues).flatten).filterMap id
      = successfulRenders b f u i target := by
    rw [sent_dispatch, List.filterMap_map]
    unfold successfulRenders
    rw [hfind]
    rfl
  rw [h2] at h1
  exact h1


/-! ## The loop over the targets -/

theorem handleTargets_results {F : Type} (b : Backend F) (sched : Scheduler F) (f u : Str)
    (targets : List Str) :
    ∀ (i : Nat) (st : HState F), ∃ blocks : List (List F),
      (handleTargets b sched f u i targets st).results.elems
          = st.results.elems ++ blocks.flatten
        ∧ List.Forall₂ (fun blk (it : Nat × Str) => blk.Perm (successfulRenders b f u it.1 it.2))
            blocks (targets.enumFrom i) := by
  induction targets with
  | nil =>
    intro i st
    exact ⟨[], by simp [handleTargets], List.Forall₂.nil⟩
  | cons target rest ih =>
    intro i st
    cases hfind : b.Find i target with
    | none =>
      obtain ⟨blocks, hres, hall⟩ := ih (i + 1) { st with findCalls := st.findCalls ++ [target] }
      refine ⟨[] :: blocks, ?_, ?_⟩
      · simp only [handleTargets, hfind]
        rw [hres]
        simp
      · refine List.Forall₂.cons ?_ hall
        simp [successfulRenders, hfind]
    | some glob =>
      obtain ⟨blocks, hres, hall⟩ := ih (i + 1)
        { results := collect st.results
            ((sched.order i ((dispatch b i f u glob).map sentValues).flatten).take
              glob.Matches.length)
          findCalls := st.findCalls ++ [target]
          renderLog := st.renderLog ++ ((dispatch b i f u glob).map renderCalls).flatten }
      refine ⟨((sched.order i ((dispatch b i f u glob).map sentValues).flatten).take
          glob.Matches.length).filterMap id :: blocks, ?_, ?_⟩
      · simp only [handleTargets, hfind]
        rw [hres, collect_elems]
        simp
      · exact List.Forall₂.cons (arrivals_perm b sched i f u target glob hfind) hall

theorem handleTargets_renderLog {F : Type} (b : Backend F) (sched : Scheduler F) (f u : Str)
    (targets : List Str) :
    ∀ (i : Nat) (st : HState F),
      (handleTargets b sched f u i targets st).renderLog
        = st.renderLog
          ++ ((targets.enumFrom i).map fun it => expectedCalls b f u it.1 it.2).flatten := by
  induction targets with
  | nil => intro i st; simp [handleTargets]
  | cons target rest ih =>
    intro i st
    cases hfind : b.Find i target with
    | none =>
      simp only [handleTargets, hfind]
      rw [ih]
      simp [expectedCalls, hfind]
    | some glob =>
      simp only [handleTargets, hfind]
      rw [ih, calls_dispatch]
      simp [expectedCalls, hfind]

theorem handleTargets_findCalls {F : Type} (b : Backend F) (sched : Scheduler F) (f u : Str)
    (targets : List Str) :
    ∀ (i : Nat) (st : HState F),
      (handleTargets b sched f u i targets st).findCalls = st.findCalls ++ targets := by
  induction targets with
  | nil => intro i st; simp [handleTargets]
  | cons target rest ih =>
    intro i st
    cases hfind : b.Find i target with
    | none =>
      simp only [handleTargets, hfind]
      rw [ih]
      simp
    | some glob =>
      simp only [handleTargets, hfind]
      rw [ih]
      simp

theorem flatten_perm_of_forall2 {α β : Type} (g : β → List α) :
    ∀ (blocks : List (List α)) (l : List β),
      List.Forall₂ (fun blk x => blk.Perm (g x)) blocks l →
      blocks.flatten.Perm (l.map g).flatten := by
  intro blocks l h
  induction h with
  | nil => simp
  | cons h1 _ ih =>
    simp only [List.flatten_cons, List.map_cons]
    exact h1.append ih

theorem target_of_mem_expectedCalls {F : Type} (b : Backend F) (f u : Str) (i : Nat)
    (target : Str) (c : RenderCall) (h : c ∈ expectedCalls b f u i target) : c.target = i := by
  unfold expectedCalls at h
  cases hfind : b.Find i target with
  | none => rw [hfind] at h; simp at h
  | some glob =>
    rw [hfind] at h
    simp only [List.mem_map] at h
    obtain ⟨m, _, rfl⟩ := h
    rfl


/-! ## renderHandler -/

theorem renderHandler_results_blocks {F : Type} (b : Backend F) (sched : Scheduler F)
    (clock : Clock) (enc : F → Str) (r : Request) :
    ∃ blocks : List (List F),
      (renderHandler b sched clock enc r).results.elems = blocks.flatten
        ∧ List.Forall₂
            (fun blk (it : Nat × Str) =>
              blk.Perm (successfulRenders b (r.fromEpoch clock) (r.untilEpoch clock) it.1 it.2))
            blocks r.targets.enum := by
  obtain ⟨blocks, hres, hall⟩ :=
    handleTargets_results b sched (r.fromEpoch clock) (r.untilEpoch clock) r.targets 0 {}
  refine ⟨blocks, ?_, hall⟩
  have : (renderHandler b sched clock enc r).results
      = (handleTargets b sched (r.fromEpoch clock) (r.untilEpoch clock) 0 r.targets {}).results :=
    rfl
  rw [this, hres]
  simp [Slice.elems]

/-- Claim C1: for every list of target patterns, every outcome of the find and
render calls and every order of arrival, the result sequence built by
`renderHandler` contains, as a multiset, exactly the FetchResponses of the
matches that are leaves, belong to a pattern whose find succeeded, and whose
render call succeeded. -/
theorem renderHandler_results_multiset {F : Type} (b : Backend F) (sched : Scheduler F)
    (clock : Clock) (enc : F → Str) (r : Request) :
    (↑((renderHandler b sched clock enc r).results.elems) : Multiset F)
      = ↑((r.targets.enum.map fun it =>
          successfulRenders b (r.fromEpoch clock) (r.untilEpoch clock) it.1 it.2).flatten) := by
  obtain ⟨blocks, hres, hall⟩ := renderHandler_results_blocks b sched clock enc r
  rw [hres]
  exact Multiset.coe_eq_coe.mpr (flatten_perm_of_forall2 _ blocks _ hall)

/-- The example of claim C1: with matches `a` (leaf), `b` (leaf), `c` (no
leaf), render succeeding for `a` and failing for `b`, the result has exactly
one element, the response for `a`. -/
theorem renderHandler_results_multiset_witness :
    ((↑((renderHandler exampleBackend (reverseScheduler Nat) exampleClock exampleEnc
          exampleRequest).results.elems) : Multiset Nat)
        = ↑((exampleRequest.targets.enum.map fun it =>
            successfulRenders exampleBackend (exampleRequest.fromEpoch exampleClock)
              (exampleRequest.untilEpoch exampleClock) it.1 it.2).flatten))
      ∧ (renderHandler exampleBackend (reverseScheduler Nat) exampleClock exampleEnc
          exampleRequest).results.elems = [1] :=
  ⟨renderHandler_results_multiset exampleBackend (reverseScheduler Nat) exampleClock
    exampleEnc exampleRequest, by decide⟩

/-- Claim C2: for every list of target patterns, `renderHandler` calls Render
exactly once for each leaf match of each pattern whose Find succeeded and never
otherwise: the calls issued are, as a multiset, those of the leaf matches of
the patterns found; Find is called for every pattern in turn, also after a
failure; and no call is issued for a pattern whose Find failed. -/
theorem renderHandler_render_calls {F : Type} (b : Backend F) (sched : Scheduler F)
    (clock : Clock) (enc : F → Str) (r : Request) :
    (↑((renderHandler b sched clock enc r).renderLog) : Multiset RenderCall)
        = ↑((r.targets.enum.map fun it =>
            expectedCalls b (r.fromEpoch clock) (r.untilEpoch clock) it.1 it.2).flatten)
      ∧ (renderHandler b sched clock enc r).findCalls = r.targets
      ∧ ∀ (i : Nat) (target : Str), r.targets[i]? = some target → b.Find i target = none →
          ∀ c ∈ (renderHandler b sched clock enc r).renderLog, c.target ≠ i := by
  have hlog : (renderHandler b sched clock enc r).renderLog
      = (r.targets.enum.map fun it =>
          expectedCalls b (r.fromEpoch clock) (r.untilEpoch clock) it.1 it.2).flatten := by
    have := handleTargets_renderLog b sched (r.fromEpoch clock) (r.untilEpoch clock)
      r.targets 0 {}
    simpa [renderHandler, Request.fromEpoch, Request.untilEpoch, List.enum] using this
  have hfind : (renderHandler b sched clock enc r).findCalls = r.targets := by
    have := handleTargets_findCalls b sched (r.fromEpoch clock) (r.untilEpoch clock)
      r.targets 0 {}
    simpa [renderHandler, Request.fromEpoch, Request.untilEpoch] using this
  refine ⟨by rw [hlog], hfind, ?_⟩
  intro i target hi hfail c hc heq
  rw [hlog, List.mem_flatten] at hc
  obtain ⟨l, hl, hcl⟩ := hc
  obtain ⟨it, hit, rfl⟩ := List.mem_map.mp hl
  have htgt := target_of_mem_expectedCalls b _ _ it.1 it.2 c hcl
  have hmem : (it.1, it.2) ∈ r.targets.enum := hit
  rw [List.mk_mem_enum_iff_getElem?] at hmem
  rw [htgt] at heq
  rw [heq, hi] at hmem
  have h2 : target = it.2 := Option.some.inj hmem
  unfold expectedCalls at hcl
  rw [heq, ← h2, hfail] at hcl
  simp at hcl

/-- The example of claim C2: two Render calls (for `a` and `b`, none for `c`);
and for a request whose first find fails, no call for that target while the
second target is processed. -/
theorem renderHandler_render_calls_witness :
    (∀ c ∈ (renderHandler exampleBackend (reverseScheduler Nat) exampleClock exampleEnc
        exampleRequest2).renderLog, c.target ≠ 0)
      ∧ ((renderHandler exampleBackend (reverseScheduler Nat) exampleClock exampleEnc
        exampleRequest).renderLog.map fun c => c.metric) = ["a".toList, "b".toList]
      ∧ ((renderHandler exampleBackend (reverseScheduler Nat) exampleClock exampleEnc
        exampleRequest2).renderLog.map fun c => (c.target, c.metric))
          = [(1, "a".toList), (1, "b".toList)] :=
  ⟨(renderHandler_render_calls exampleBackend (reverseScheduler Nat) exampleClock exampleEnc
      exampleRequest2).2.2 0 "nosuch".toList (by decide) (by decide),
    by decide, by decide⟩

/-- Claim C3: across patterns the result order follows input pattern order.
For every list of target patterns and every order of arrival, the result
sequence of `renderHandler` is the concatenation, in input order, of one block
per pattern, each block a rearrangement of that pattern's successful leaf
renders. -/
theorem renderHandler_results_in_pattern_order {F : Type} (b : Backend F)
    (sched : Scheduler F) (clock : Clock) (enc : F → Str) (r : Request) :
    ∃ blocks : List (List F),
      (renderHandler b sched clock enc r).results.elems = blocks.flatten
        ∧ List.Forall₂
            (fun blk (it : Nat × Str) =>
              blk.Perm (successfulRenders b (r.fromEpoch clock) (r.untilEpoch clock) it.1 it.2))
            blocks r.targets.enum :=
  renderHandler_results_blocks b sched clock enc r

/-- The example of claim C3: for the two targets of `exampleRequest2` the
result is the block of the first target (empty, its find fails) followed by
the block of the second. -/
theorem renderHandler_results_in_pattern_order_witness :
    (∃ blocks : List (List Nat),
      (renderHandler exampleBackend (reverseScheduler Nat) exampleClock exampleEnc
          exampleRequest2).results.elems = blocks.flatten
        ∧ List.Forall₂
            (fun blk (it : Nat × Str) =>
              blk.Perm (successfulRenders exampleBackend (exampleRequest2.fromEpoch exampleClock)
                (exampleRequest2.untilEpoch exampleClock) it.1 it.2))
            blocks exampleRequest2.targets.enum)
      ∧ (renderHandler exampleBackend (reverseScheduler Nat) exampleClock exampleEnc
          exampleRequest2).results.elems = [1] :=
  ⟨renderHandler_results_in_pattern_order exampleBackend (reverseScheduler Nat) exampleClock
    exampleEnc exampleRequest2, by decide⟩

/-- Every rearrangement of the values sent is the order of arrival under some
scheduler. -/
theorem scheduler_of_perm {F : Type} (i : Nat) (l l1 : List (Option F)) (h : l1.Perm l) :
    ∃ sched : Scheduler F, sched.order i l = l1 := by
  classical
  refine ⟨⟨fun _ x => if x = l then l1 else x, ?_⟩, by simp⟩
  intro _ x
  by_cases hx : x = l
  · subst hx
    simpa using h
  · simp [hx]

/-! ## The response body -/

theorem renderHandler_body {F : Type} (b : Backend F) (sched : Scheduler F)
    (clock : Clock) (enc : F → Str) (r : Request) :
    (renderHandler b sched clock enc r).body
      = jsonEncode enc (renderHandler b sched clock enc r).results := rfl

theorem collect_ne_empty {F : Type} (l : List (Option F)) :
    ∀ results : Slice F, results ≠ some [] → collect results l ≠ some [] := by
  induction l with
  | nil => intro results h; simpa [collect] using h
  | cons a as ih =>
    intro results h
    cases a with
    | none => simpa [collect] using ih results h
    | some r =>
      simp only [collect]
      apply ih
      cases results <;> simp [Slice.append]

theorem handleTargets_ne_empty {F : Type} (b : Backend F) (sched : Scheduler F) (f u : Str)
    (targets : List Str) :
    ∀ (i : Nat) (st : HState F), st.results ≠ some [] →
      (handleTargets b sched f u i targets st).results ≠ some [] := by
  induction targets with
  | nil => intro i st h; simpa [handleTargets] using h
  | cons target rest ih =>
    intro i st h
    cases hfind : b.Find i target with
    | none =>
      simp only [handleTargets, hfind]
      exact ih _ _ h
    | some glob =>
      simp only [handleTargets, hfind]
      exact ih _ _ (collect_ne_empty _ _ h)

/-- When no render succeeds (no target, every find fails, or every render
fails) the variable `results` is the nil slice and the body is `null`. -/
theorem renderHandler_body_null {F : Type} (b : Backend F) (sched : Scheduler F)
    (clock : Clock) (enc : F → Str) (r : Request)
    (h : ∀ it ∈ r.targets.enum,
      successfulRenders b (r.fromEpoch clock) (r.untilEpoch clock) it.1 it.2 = []) :
    (renderHandler b sched clock enc r).body = "null\n".toList := by
  obtain ⟨blocks, hres, hall⟩ := renderHandler_results_blocks b sched clock enc r
  have hperm := flatten_perm_of_forall2 _ blocks _ hall
  have hnil : (r.targets.enum.map fun it : Nat × Str =>
      successfulRenders b (r.fromEpoch clock) (r.untilEpoch clock) it.1 it.2).flatten = [] := by
    rw [List.flatten_eq_nil_iff]
    intro l hl
    obtain ⟨it, hit, rfl⟩ := List.mem_map.mp hl
    exact h it hit
  rw [hnil] at hperm
  have hempty : (renderHandler b sched clock enc r).results.elems = [] := by
    rw [hres]
    exact List.Perm.eq_nil hperm
  have hne : (renderHandler b sched clock enc r).results ≠ some [] :=
    handleTargets_ne_empty b sched _ _ r.targets 0 {} (by simp)
  rw [renderHandler_body]
  cases hr : (renderHandler b sched clock enc r).results with
  | none => rfl
  | some xs =>
    rw [hr] at hempty hne
    simp only [Slice.elems] at hempty
    subst hempty
    exact absurd rfl hne

/-- On claim C6: for a request without target the variable `results` is still
the nil slice when it is encoded, and the body written is `null`, not the empty
array `[]`; a request with a successful render gets an array. -/
theorem renderHandler_body_no_target {F : Type} (b : Backend F) (sched : Scheduler F)
    (clock : Clock) (enc : F → Str) (fromParam untilParam : Str) :
    (renderHandler b sched clock enc ⟨[], fromParam, untilParam⟩).body = "null\n".toList
      ∧ isJsonArray (renderHandler b sched clock enc ⟨[], fromParam, untilParam⟩).body = false
      ∧ (renderHandler exampleBackend (reverseScheduler Nat) exampleClock exampleEnc
          exampleRequest).body = "[1]\n".toList := by
  refine ⟨rfl, rfl, by decide⟩



/-! ## Sums over the goroutines -/

theorem sum_map_set {α : Type} (f : α → Nat) (l : List α) :
    ∀ (i : Nat) (c c1 : α), l[i]? = some c →
      ((l.set i c1).map f).sum + f c = (l.map f).sum + f c1 := by
  induction l with
  | nil => intro i c c1 h; simp at h
  | cons a as ih =>
    intro i c c1 h
    cases i with
    | zero =>
      simp only [List.getElem?_cons_zero, Option.some.injEq] at h
      subst h
      simp only [List.set_cons_zero, List.map_cons, List.sum_cons]
      omega
    | succ n =>
      simp only [List.getElem?_cons_succ] at h
      have := ih n c c1 h
      simp only [List.set_cons_succ, List.map_cons, List.sum_cons]
      omega

theorem taskSum_set {F : Type} (f : List (Action F) → Nat) (s : Sys F) (lim : Nat)
    (k j : Nat) (fan fan1 : Fan F) (code code1 : List (Action F))
    (hk : s.fans[k]? = some fan) (hj : fan.tasks[j]? = some code)
    (h1 : fan1.tasks = fan.tasks.set j code1) :
    taskSum f ⟨lim, s.fans.set k fan1⟩ + f code = taskSum f s + f code1 := by
  have hin := sum_map_set f fan.tasks j code code1 hj
  have hout := sum_map_set (fun fn : Fan F => (fn.tasks.map f).sum) s.fans k fan fan1 hk
  simp only [h1] at hout
  unfold taskSum
  simp only
  omega

theorem taskSum_same {F : Type} (f : List (Action F) → Nat) (s : Sys F) (lim : Nat)
    (k : Nat) (fan fan1 : Fan F) (hk : s.fans[k]? = some fan) (h1 : fan1.tasks = fan.tasks) :
    taskSum f ⟨lim, s.fans.set k fan1⟩ = taskSum f s := by
  have hout := sum_map_set (fun fn : Fan F => (fn.tasks.map f).sum) s.fans k fan fan1 hk
  simp only [h1] at hout
  unfold taskSum
  simp only
  omega

theorem taskSum_append {F : Type} (f : List (Action F) → Nat) (s : Sys F) (lim : Nat)
    (fan : Fan F) :
    taskSum f ⟨lim, s.fans ++ [fan]⟩ = taskSum f s + (fan.tasks.map f).sum := by
  simp [taskSum]

theorem sum_map_add_of_forall {α : Type} (f g h : α → Nat) (l : List α)
    (hl : ∀ a ∈ l, g a = f a + h a) :
    (l.map g).sum = (l.map f).sum + (l.map h).sum := by
  induction l with
  | nil => rfl
  | cons a as ih =>
    have h1 := hl a (List.mem_cons_self _ _)
    have h2 := ih (fun x hx => hl x (List.mem_cons_of_mem _ hx))
    simp only [List.map_cons, List.sum_cons]
    omega

theorem taskSum_add_of_forall {F : Type} (f g h : List (Action F) → Nat) (s : Sys F)
    (hs : ∀ fan ∈ s.fans, ∀ code ∈ fan.tasks, g code = f code + h code) :
    taskSum g s = taskSum f s + taskSum h s := by
  unfold taskSum
  apply sum_map_add_of_forall
  intro fan hfan
  exact sum_map_add_of_forall f g h fan.tasks (hs fan hfan)

theorem taskSum_zero_of_forall {F : Type} (f : List (Action F) → Nat) (s : Sys F)
    (hs : ∀ fan ∈ s.fans, ∀ code ∈ fan.tasks, f code = 0) : taskSum f s = 0 := by
  unfold taskSum
  apply List.sum_eq_zero
  intro x hx
  obtain ⟨fan, hfan, rfl⟩ := List.mem_map.mp hx
  apply List.sum_eq_zero
  intro y hy
  obtain ⟨code, hcode, rfl⟩ := List.mem_map.mp hy
  exact hs fan hfan code hcode


/-! ## One step of the process -/

/-- What a step of a goroutine does: it performs the first action `a` of its
remaining code; the token count goes up by one on `enter`, which needs a free
slot, down by one on `leave`, and a `send` appends its value to `rch`. -/
theorem runTask_some {F : Type} {cap lim : Nat} {fan fan1 : Fan F} {j l1 : Nat}
    (h : fan.runTask cap lim j = some (l1, fan1)) :
    ∃ (a : Action F) (rest : List (Action F)),
      fan.tasks[j]? = some (a :: rest)
        ∧ fan1.tasks = fan.tasks.set j rest
        ∧ fan1.size = fan.size
        ∧ fan1.received = fan.received
        ∧ fan1.rch = fan.rch ++ sentValues [a]
        ∧ l1 + (if a.isLeave then 1 else 0) = lim + (if a.isEnter then 1 else 0)
        ∧ (a.isEnter = true → lim < cap) := by
  unfold Fan.runTask at h
  split at h
  · simp at h
  · simp at h
  · rename_i rest hj
    unfold enter at h
    by_cases hc : lim < cap
    · simp only [hc, if_true, Option.some.injEq, Prod.mk.injEq] at h
      obtain ⟨rfl, rfl⟩ := h
      exact ⟨Action.enter, rest, hj, rfl, rfl, rfl, by simp [sentValues],
        by simp [Action.isLeave, Action.isEnter], fun _ => hc⟩
    · simp [hc] at h
  · rename_i c rest hj
    simp only [Option.some.injEq, Prod.mk.injEq] at h
    obtain ⟨rfl, rfl⟩ := h
    exact ⟨Action.render c, rest, hj, rfl, rfl, rfl, by simp [sentValues],
      by simp [Action.isLeave, Action.isEnter], by simp [Action.isEnter]⟩
  · rename_i v rest hj
    by_cases hc : fan.rch.length < fan.size
    · simp only [hc, if_true, Option.some.injEq, Prod.mk.injEq] at h
      obtain ⟨rfl, rfl⟩ := h
      exact ⟨Action.send v, rest, hj, rfl, rfl, rfl, by simp [sentValues],
        by simp [Action.isLeave, Action.isEnter], by simp [Action.isEnter]⟩
    · simp [hc] at h
  · rename_i rest hj
    unfold leave at h
    by_cases hc : 0 < lim
    · simp only [hc, if_true, Option.some.injEq, Prod.mk.injEq] at h
      obtain ⟨rfl, rfl⟩ := h
      refine ⟨Action.leave, rest, hj, rfl, rfl, rfl, by simp [sentValues], ?_,
        by simp [Action.isEnter]⟩
      simp only [Action.isLeave, Action.isEnter, if_true, Bool.false_eq_true, if_false]
      omega
    · simp [hc] at h

theorem receive_some {F : Type} {fan fan1 : Fan F} (h : fan.receive = some fan1) :
    ∃ (v : Option F) (vs : List (Option F)),
      fan.rch = v :: vs ∧ fan1.rch = vs ∧ fan1.received = fan.received ++ [v]
        ∧ fan1.tasks = fan.tasks ∧ fan1.size = fan.size
        ∧ fan.received.length < fan.size := by
  unfold Fan.receive at h
  by_cases hc : fan.received.length < fan.size
  · rw [if_pos hc] at h
    split at h
    · simp at h
    · rename_i v vs hr
      simp only [Option.some.injEq] at h
      subst h
      exact ⟨v, vs, hr, rfl, rfl, rfl, rfl, hc⟩
  · simp [hc] at h

theorem countP_goFunc_enter {F : Type} (i : Nat) (render : Str → Str → Str → Option F)
    (f u : Str) (m : GlobMatch) :
    (goFunc i render f u m).countP Action.isEnter = 1 := by
  unfold goFunc
  cases m.isLeaf
  · simp [List.countP_cons, Action.isEnter]
  · cases render m.path f u <;> simp [List.countP_cons, Action.isEnter]

theorem countP_goFunc_leave {F : Type} (i : Nat) (render : Str → Str → Str → Option F)
    (f u : Str) (m : GlobMatch) :
    (goFunc i render f u m).countP Action.isLeave = 1 := by
  unfold goFunc
  cases m.isLeaf
  · simp [List.countP_cons, Action.isLeave]
  · cases render m.path f u <;> simp [List.countP_cons, Action.isLeave]

theorem mem_dispatch {F : Type} {b : Backend F} {i : Nat} {f u : Str} {glob : GlobResponse}
    {code : List (Action F)} (h : code ∈ dispatch b i f u glob) :
    ∃ (j : Nat) (m : GlobMatch), code = goFunc i (b.Render i j) f u m := by
  unfold dispatch at h
  obtain ⟨jm, _, rfl⟩ := List.mem_map.mp h
  exact ⟨jm.1, jm.2, rfl⟩

/-- The balance of tokens: whatever a step adds to the Limiter it takes from
the calls of `enter` still to come, and whatever it removes from the calls of
`leave` still to come. -/
theorem step_balance {F : Type} {cap : Nat} {s s1 : Sys F} {e : Event F}
    (h : step cap s e = some s1) :
    s1.limiter + taskSum (List.countP Action.isEnter) s1 + taskSum (List.countP Action.isLeave) s
      = s.limiter + taskSum (List.countP Action.isEnter) s
        + taskSum (List.countP Action.isLeave) s1 := by
  cases e with
  | fanOut b i f u glob =>
    simp only [step, Option.some.injEq] at h
    subst h
    simp only [taskSum_append]
    have h1 : ((dispatch b i f u glob).map (List.countP Action.isEnter)).sum
        = ((dispatch b i f u glob).map (List.countP Action.isLeave)).sum := by
      congr 1
      apply List.map_congr_left
      intro code hcode
      obtain ⟨j, m, rfl⟩ := mem_dispatch hcode
      rw [countP_goFunc_enter, countP_goFunc_leave]
    omega
  | run k j =>
    simp only [step] at h
    cases hk : s.fans[k]? with
    | none => simp [hk] at h
    | some fan =>
      simp only [hk] at h
      cases hr : fan.runTask cap s.limiter j with
      | none => simp [hr] at h
      | some p =>
        obtain ⟨l1, fan1⟩ := p
        simp only [hr, Option.some.injEq] at h
        subst h
        obtain ⟨a, rest, hj, ht, _, _, _, hl, _⟩ := runTask_some hr
        have he := taskSum_set (List.countP Action.isEnter) s l1 k j fan fan1 _ rest hk hj ht
        have hv := taskSum_set (List.countP Action.isLeave) s l1 k j fan fan1 _ rest hk hj ht
        simp only [List.countP_cons] at he hv
        simp only
        cases a <;> simp [Action.isEnter, Action.isLeave] at he hv hl <;> omega
  | recv k =>
    simp only [step] at h
    cases hk : s.fans[k]? with
    | none => simp [hk] at h
    | some fan =>
      simp only [hk] at h
      cases hr : fan.receive with
      | none => simp [hr] at h
      | some fan1 =>
        simp only [hr, Option.some.injEq] at h
        subst h
        obtain ⟨v, vs, _, _, _, ht, _, _⟩ := receive_some hr
        rw [taskSum_same _ s s.limiter k fan fan1 hk ht,
          taskSum_same _ s s.limiter k fan fan1 hk ht]

theorem runEvents_balance {F : Type} {cap : Nat} (evs : List (Event F)) :
    ∀ (s s1 : Sys F), runEvents cap s evs = some s1 →
      s1.limiter + taskSum (List.countP Action.isEnter) s1
          + taskSum (List.countP Action.isLeave) s
        = s.limiter + taskSum (List.countP Action.isEnter) s
          + taskSum (List.countP Action.isLeave) s1 := by
  induction evs with
  | nil =>
    intro s s1 h
    simp only [runEvents, Option.some.injEq] at h
    subst h
    omega
  | cons e es ih =>
    intro s s1 h
    simp only [runEvents] at h
    cases hs : step cap s e with
    | none => simp [hs] at h
    | some s2 =>
      simp only [hs] at h
      have h1 := step_balance hs
      have h2 := ih s2 s1 h
      omega


/-! ## Invariants of the process -/

theorem shaped_tail {F : Type} {a : Action F} {rest : List (Action F)}
    (h : Shaped (a :: rest)) : Shaped rest := by
  obtain ⟨i, render, f, u, m, hs⟩ := h
  exact ⟨i, render, f, u, m, (List.suffix_cons a rest).trans hs⟩

/-- For the remaining code of a render goroutine, the calls of `leave` still
to come exceed those of `enter` by one exactly when it holds a token. -/
theorem shaped_count {F : Type} {code : List (Action F)} (h : Shaped code) :
    code.countP Action.isLeave
      = code.countP Action.isEnter + (if holdsToken code then 1 else 0) := by
  obtain ⟨i, render, f, u, m, hs⟩ := h
  unfold goFunc at hs
  cases hl : m.isLeaf
  · simp only [hl, Bool.false_eq_true, if_false, List.cons_append, List.nil_append,
      List.suffix_cons_iff, List.suffix_nil] at hs
    rcases hs with rfl | rfl | rfl | rfl <;>
      simp [holdsToken, Action.isEnter, Action.isLeave, List.countP_cons]
  · cases hr : render m.path f u <;>
    · simp only [hl, hr, if_true, List.cons_append, List.nil_append,
        List.suffix_cons_iff, List.suffix_nil] at hs
      rcases hs with rfl | rfl | rfl | rfl | rfl <;>
        simp [holdsToken, Action.isEnter, Action.isLeave, List.countP_cons]

theorem step_allShaped {F : Type} {cap : Nat} {s s1 : Sys F} {e : Event F}
    (hinv : AllShaped s) (h : step cap s e = some s1) : AllShaped s1 := by
  cases e with
  | fanOut b i f u glob =>
    simp only [step, Option.some.injEq] at h
    subst h
    intro fan hfan code hcode
    simp only [List.mem_append, List.mem_singleton] at hfan
    rcases hfan with hfan | rfl
    · exact hinv fan hfan code hcode
    · obtain ⟨j, m, rfl⟩ := mem_dispatch hcode
      exact ⟨i, b.Render i j, f, u, m, List.suffix_refl _⟩
  | run k j =>
    simp only [step] at h
    cases hk : s.fans[k]? with
    | none => simp [hk] at h
    | some fan =>
      simp only [hk] at h
      cases hr : fan.runTask cap s.limiter j with
      | none => simp [hr] at h
      | some p =>
        obtain ⟨l1, fan1⟩ := p
        simp only [hr, Option.some.injEq] at h
        subst h
        obtain ⟨a, rest, hj, ht, _⟩ := runTask_some hr
        have hfanmem : fan ∈ s.fans := List.getElem?_mem hk
        have hcodemem : a :: rest ∈ fan.tasks := List.getElem?_mem hj
        intro fan2 hfan2 code hcode
        rcases List.mem_or_eq_of_mem_set hfan2 with hold | rfl
        · exact hinv fan2 hold code hcode
        · rw [ht] at hcode
          rcases List.mem_or_eq_of_mem_set hcode with hold | rfl
          · exact hinv fan hfanmem code hold
          · exact shaped_tail (hinv fan hfanmem _ hcodemem)
  | recv k =>
    simp only [step] at h
    cases hk : s.fans[k]? with
    | none => simp [hk] at h
    | some fan =>
      simp only [hk] at h
      cases hr : fan.receive with
      | none => simp [hr] at h
      | some fan1 =>
        simp only [hr, Option.some.injEq] at h
        subst h
        obtain ⟨v, vs, _, _, _, ht, _, _⟩ := receive_some hr
        have hfanmem : fan ∈ s.fans := List.getElem?_mem hk
        intro fan2 hfan2 code hcode
        rcases List.mem_or_eq_of_mem_set hfan2 with hold | rfl
        · exact hinv fan2 hold code hcode
        · rw [ht] at hcode
          exact hinv fan hfanmem code hcode

theorem step_limiter_le {F : Type} {cap : Nat} {s s1 : Sys F} {e : Event F}
    (hinv : s.limiter ≤ cap) (h : step cap s e = some s1) : s1.limiter ≤ cap := by
  cases e with
  | fanOut b i f u glob =>
    simp only [step, Option.some.injEq] at h
    subst h
    exact hinv
  | run k j =>
    simp only [step] at h
    cases hk : s.fans[k]? with
    | none => simp [hk] at h
    | some fan =>
      simp only [hk] at h
      cases hr : fan.runTask cap s.limiter j with
      | none => simp [hr] at h
      | some p =>
        obtain ⟨l1, fan1⟩ := p
        simp only [hr, Option.some.injEq] at h
        subst h
        obtain ⟨a, rest, _, _, _, _, _, hl, hcap⟩ := runTask_some hr
        simp only
        cases a <;> simp [Action.isEnter, Action.isLeave] at hl hcap <;> omega
  | recv k =>
    simp only [step] at h
    cases hk : s.fans[k]? with
    | none => simp [hk] at h
    | some fan =>
      simp only [hk] at h
      cases hr : fan.receive with
      | none => simp [hr] at h
      | some fan1 =>
        simp only [hr, Option.some.injEq] at h
        subst h
        exact hinv

theorem runEvents_invariant {F : Type} {cap : Nat} (evs : List (Event F)) :
    ∀ (s s1 : Sys F), runEvents cap s evs = some s1 →
      AllShaped s → s.limiter ≤ cap → AllShaped s1 ∧ s1.limiter ≤ cap := by
  induction evs with
  | nil =>
    intro s s1 h hs hl
    simp only [runEvents, Option.some.injEq] at h
    subst h
    exact ⟨hs, hl⟩
  | cons e es ih =>
    intro s s1 h hs hl
    simp only [runEvents] at h
    cases hstep : step cap s e with
    | none => simp [hstep] at h
    | some s2 =>
      simp only [hstep] at h
      exact ih s2 s1 h (step_allShaped hs hstep) (step_limiter_le hl hstep)

theorem allShaped_init (F : Type) : AllShaped (Sys.init F) := by
  intro fan hfan
  simp [Sys.init] at hfan

/-- In every state reached from the start, the tokens in the Limiter are
exactly those of the goroutines in flight. -/
theorem limiter_eq_inFlight {F : Type} {cap : Nat} (evs : List (Event F)) (s : Sys F)
    (h : runEvents cap (Sys.init F) evs = some s) : s.limiter = inFlight s := by
  have hbal := runEvents_balance evs _ _ h
  have hinv := (runEvents_invariant evs _ _ h (allShaped_init F) (Nat.zero_le _)).1
  have hsum := taskSum_add_of_forall (List.countP Action.isEnter)
    (List.countP Action.isLeave) (fun code => if holdsToken code then 1 else 0) s
    (fun fan hfan code hcode => shaped_count (hinv fan hfan code hcode))
  have h0 : taskSum (List.countP Action.isEnter) (Sys.init F) = 0 := rfl
  have h1 : taskSum (List.countP Action.isLeave) (Sys.init F) = 0 := rfl
  have h2 : (Sys.init F).limiter = 0 := rfl
  unfold inFlight
  omega

/-- Claim C4: for any capacity of the Limiter and any number of render
goroutines started, by any number of concurrent requests, the number of
goroutines in flight, that is between `Limiter.enter` and `Limiter.leave`,
never exceeds the capacity. -/
theorem inFlight_le_capacity {F : Type} (cap : Nat) (evs : List (Event F)) (s : Sys F)
    (h : runEvents cap (Sys.init F) evs = some s) : inFlight s ≤ cap := by
  have heq := limiter_eq_inFlight evs s h
  have hle := (runEvents_invariant evs _ _ h (allShaped_init F) (Nat.zero_le _)).2
  omega


theorem inFlight_le_capacity_witness :
    runEvents 1 (Sys.init Nat) (exampleEvents.take 2) = some exampleStateInFlight
      ∧ inFlight exampleStateInFlight ≤ 1
      ∧ inFlight exampleStateInFlight = 1
      ∧ step 1 exampleStateInFlight (Event.run 0 0) = none :=
  ⟨by decide,
    inFlight_le_capacity 1 (exampleEvents.take 2) exampleStateInFlight (by decide),
    by decide, by decide⟩

/-! ## Tokens are given back -/

theorem goFunc_enter_leave {F : Type} (i : Nat) (render : Str → Str → Str → Option F)
    (f u : Str) (m : GlobMatch) :
    ∃ mid : List (Action F),
      goFunc i render f u m = Action.enter :: (mid ++ [Action.leave])
        ∧ ∀ a ∈ mid, a.isEnter = false ∧ a.isLeave = false := by
  unfold goFunc
  cases hl : m.isLeaf
  · exact ⟨[Action.send none], by simp, by simp [Action.isEnter, Action.isLeave]⟩
  · cases hr : render m.path f u with
    | none =>
      exact ⟨[Action.render ⟨i, m.path, f, u⟩, Action.send none], by simp,
        by simp [Action.isEnter, Action.isLeave]⟩
    | some r =>
      exact ⟨[Action.render ⟨i, m.path, f, u⟩, Action.send (some r)], by simp,
        by simp [Action.isEnter, Action.isLeave]⟩

theorem taskSum_quiescent {F : Type} (f : List (Action F) → Nat) (hf : f [] = 0)
    (s : Sys F) (hq : quiescent s) : taskSum f s = 0 := by
  apply taskSum_zero_of_forall
  intro fan hfan code hcode
  rw [hq fan hfan code hcode, hf]

/-- Claim C5: every render goroutine releases exactly one Limiter token
regardless of outcome.  On each path (leaf with successful Render, leaf with
failed Render, no leaf) its body is one `Limiter.enter`, then work without
`enter` or `leave`, then one `Limiter.leave`; and between two states in which
every goroutine started has finished, whatever requests were served in between
and however their steps interleaved, the number of tokens in the Limiter is the
same. -/
theorem limiter_restored {F : Type} (cap : Nat) (s s1 : Sys F) (evs : List (Event F))
    (hq : quiescent s) (hrun : runEvents cap s evs = some s1) (hq1 : quiescent s1) :
    s1.limiter = s.limiter
      ∧ ∀ (i : Nat) (render : Str → Str → Str → Option F) (f u : Str) (m : GlobMatch),
          ∃ mid : List (Action F),
            goFunc i render f u m = Action.enter :: (mid ++ [Action.leave])
              ∧ ∀ a ∈ mid, a.isEnter = false ∧ a.isLeave = false := by
  refine ⟨?_, goFunc_enter_leave⟩
  have hbal := runEvents_balance evs s s1 hrun
  have e0 := taskSum_quiescent (List.countP (Action.isEnter (F := F))) rfl s hq
  have l0 := taskSum_quiescent (List.countP (Action.isLeave (F := F))) rfl s hq
  have e1 := taskSum_quiescent (List.countP (Action.isEnter (F := F))) rfl s1 hq1
  have l1 := taskSum_quiescent (List.countP (Action.isLeave (F := F))) rfl s1 hq1
  omega

theorem limiter_restored_witness :
    exampleStateDone.limiter = (Sys.init Nat).limiter ∧ exampleStateDone.limiter = 0 :=
  ⟨(limiter_restored 1 (Sys.init Nat) exampleStateDone exampleEvents
      (by intro fan hfan; simp [Sys.init] at hfan) (by decide)
      (by intro fan hfan code hcode
          simp only [exampleStateDone, List.mem_cons, List.mem_singleton, List.not_mem_nil,
            or_false, or_self] at hfan
          subst hfan
          simpa using hcode)).1, rfl⟩


/-! ## Fan-in: what the receive loop gets -/

theorem sentValues_cons {F : Type} (a : Action F) (rest : List (Action F)) :
    sentValues (a :: rest) = sentValues [a] ++ sentValues rest := by
  cases a <;> simp [sentValues]

theorem flatten_set_perm {F : Type} (l : List (List (Action F))) :
    ∀ (j : Nat) (a : Action F) (rest : List (Action F)), l[j]? = some (a :: rest) →
      (((l.set j rest).map sentValues).flatten ++ sentValues [a]).Perm
        ((l.map sentValues).flatten) := by
  induction l with
  | nil => intro j a rest h; simp at h
  | cons c t ih =>
    intro j a rest h
    cases j with
    | zero =>
      simp only [List.getElem?_cons_zero, Option.some.injEq] at h
      subst h
      simp only [List.set_cons_zero, List.map_cons, List.flatten_cons]
      rw [sentValues_cons a rest]
      refine List.perm_append_comm.trans ?_
      rw [List.append_assoc]
    | succ n =>
      simp only [List.getElem?_cons_succ] at h
      simp only [List.set_cons_succ, List.map_cons, List.flatten_cons, List.append_assoc]
      exact (ih n a rest h).append_left _

theorem keeps_refl {F : Type} (fan : Fan F) : fan.Keeps fan := ⟨List.Perm.refl _, rfl⟩

theorem keeps_trans {F : Type} {f1 f2 f3 : Fan F} (h1 : f1.Keeps f2) (h2 : f2.Keeps f3) :
    f1.Keeps f3 := ⟨h2.1.trans h1.1, h2.2.trans h1.2⟩

theorem runTask_keeps {F : Type} {cap lim : Nat} {fan fan1 : Fan F} {j l1 : Nat}
    (h : fan.runTask cap lim j = some (l1, fan1)) : fan.Keeps fan1 := by
  obtain ⟨a, rest, hj, ht, hsz, hrc, hrch, _, _⟩ := runTask_some h
  refine ⟨?_, hsz⟩
  unfold Fan.pool
  rw [ht, hrc, hrch]
  have hp := flatten_set_perm fan.tasks j a rest hj
  simp only [List.append_assoc]
  refine List.Perm.append_left _ (List.Perm.append_left _ ?_)
  exact List.perm_append_comm.trans hp

theorem receive_keeps {F : Type} {fan fan1 : Fan F} (h : fan.receive = some fan1) :
    fan.Keeps fan1 := by
  obtain ⟨v, vs, hr, hr1, hrc, ht, hsz, _⟩ := receive_some h
  refine ⟨?_, hsz⟩
  unfold Fan.pool
  rw [ht, hr1, hrc, hr]
  simp

/-- A step keeps every fan-out in its place, with its values and its size. -/
theorem step_keeps {F : Type} {cap : Nat} {s s1 : Sys F} {e : Event F}
    (h : step cap s e = some s1) (k : Nat) (fan : Fan F) (hk : s.fans[k]? = some fan) :
    ∃ fan1, s1.fans[k]? = some fan1 ∧ fan.Keeps fan1 := by
  have hlt : k < s.fans.length := (List.getElem?_eq_some.mp hk).1
  cases e with
  | fanOut b i f u glob =>
    simp only [step, Option.some.injEq] at h
    subst h
    refine ⟨fan, ?_, keeps_refl fan⟩
    simp only
    rw [List.getElem?_append_left hlt, hk]
  | run k2 j =>
    simp only [step] at h
    cases hk2 : s.fans[k2]? with
    | none => simp [hk2] at h
    | some fan2 =>
      simp only [hk2] at h
      cases hr : fan2.runTask cap s.limiter j with
      | none => simp [hr] at h
      | some p =>
        obtain ⟨l1, fan3⟩ := p
        simp only [hr, Option.some.injEq] at h
        subst h
        by_cases hkk : k2 = k
        · subst hkk
          rw [hk] at hk2
          cases hk2
          exact ⟨fan3, List.getElem?_set_self hlt, runTask_keeps hr⟩
        · refine ⟨fan, ?_, keeps_refl fan⟩
          simp only
          rw [List.getElem?_set_ne hkk, hk]
  | recv k2 =>
    simp only [step] at h
    cases hk2 : s.fans[k2]? with
    | none => simp [hk2] at h
    | some fan2 =>
      simp only [hk2] at h
      cases hr : fan2.receive with
      | none => simp [hr] at h
      | some fan3 =>
        simp only [hr, Option.some.injEq] at h
        subst h
        by_cases hkk : k2 = k
        · subst hkk
          rw [hk] at hk2
          cases hk2
          exact ⟨fan3, List.getElem?_set_self hlt, receive_keeps hr⟩
        · refine ⟨fan, ?_, keeps_refl fan⟩
          simp only
          rw [List.getElem?_set_ne hkk, hk]

theorem runEvents_keeps {F : Type} {cap : Nat} (evs : List (Event F)) :
    ∀ (s s1 : Sys F), runEvents cap s evs = some s1 →
      ∀ (k : Nat) (fan : Fan F), s.fans[k]? = some fan →
        ∃ fan1, s1.fans[k]? = some fan1 ∧ fan.Keeps fan1 := by
  induction evs with
  | nil =>
    intro s s1 h k fan hk
    simp only [runEvents, Option.some.injEq] at h
    subst h
    exact ⟨fan, hk, keeps_refl fan⟩
  | cons e es ih =>
    intro s s1 h k fan hk
    simp only [runEvents] at h
    cases hstep : step cap s e with
    | none => simp [hstep] at h
    | some s2 =>
      simp only [hstep] at h
      obtain ⟨fan2, hk2, hkeep2⟩ := step_keeps hstep k fan hk
      obtain ⟨fan1, hk1, hkeep1⟩ := ih s2 s1 h k fan2 hk2
      exact ⟨fan1, hk1, keeps_trans hkeep2 hkeep1⟩

theorem length_sent_dispatch {F : Type} (b : Backend F) (i : Nat) (f u : Str)
    (glob : GlobResponse) :
    (((dispatch b i f u glob).map sentValues).flatten).length = glob.Matches.length := by
  rw [sent_dispatch]
  simp

/-- Fan-in: after a handler has started the goroutines of a target, however
the steps of all goroutines and handlers interleave from then on, once its
receive loop has taken `len(glob.GetMatches())` values these are a
rearrangement of the values its goroutines send. -/
theorem received_perm_sent {F : Type} (cap : Nat) (s s1 : Sys F) (b : Backend F) (i : Nat)
    (f u : Str) (glob : GlobResponse) (evs : List (Event F))
    (h : runEvents cap s (Event.fanOut b i f u glob :: evs) = some s1) :
    ∃ fan, s1.fans[s.fans.length]? = some fan ∧ fan.size = glob.Matches.length
      ∧ (fan.received.length = fan.size →
          fan.received.Perm (((dispatch b i f u glob).map sentValues).flatten)) := by
  simp only [runEvents, step] at h
  have hk : (s.fans ++ [(⟨dispatch b i f u glob, [], [], glob.Matches.length⟩ : Fan F)])[
      s.fans.length]? = some ⟨dispatch b i f u glob, [], [], glob.Matches.length⟩ :=
    List.getElem?_concat_length _ _
  obtain ⟨fan, hfan, hperm, hsize⟩ := runEvents_keeps evs _ s1 h _ _ hk
  refine ⟨fan, hfan, hsize, ?_⟩
  intro hdone
  simp only [Fan.pool, List.nil_append] at hperm
  have hlen := hperm.length_eq
  rw [length_sent_dispatch] at hlen
  simp only [List.length_append] at hlen
  simp only at hsize
  have hz : (fan.rch ++ (fan.tasks.map sentValues).flatten).length = 0 := by
    simp only [List.length_append]
    omega
  have hnil : fan.rch ++ (fan.tasks.map sentValues).flatten = [] := List.length_eq_zero.mp hz
  rw [List.append_assoc, hnil, List.append_nil] at hperm
  exact hperm


/-! ## Every fan-out holds as many values as it has goroutines -/

theorem step_allFull {F : Type} {cap : Nat} {s s1 : Sys F} {e : Event F}
    (hinv : AllFull s) (h : step cap s e = some s1) : AllFull s1 := by
  intro fan1 hfan1
  obtain ⟨k, hk1⟩ := List.mem_iff_getElem?.mp hfan1
  by_cases hlt : k < s.fans.length
  · obtain ⟨fan, hk⟩ : ∃ fan, s.fans[k]? = some fan :=
      ⟨s.fans[k], List.getElem?_eq_getElem hlt⟩
    obtain ⟨fan2, hk2, hperm, hsize⟩ := step_keeps h k fan hk
    rw [hk1] at hk2
    cases hk2
    rw [hperm.length_eq, hsize]
    exact hinv fan (List.getElem?_mem hk)
  · cases e with
    | fanOut b i f u glob =>
      simp only [step, Option.some.injEq] at h
      subst h
      simp only at hk1
      rw [List.getElem?_append_right (Nat.le_of_not_lt hlt)] at hk1
      have hmem := List.getElem?_mem hk1
      simp only [List.mem_singleton] at hmem
      subst hmem
      simp only [Fan.pool, List.nil_append]
      exact length_sent_dispatch b i f u glob
    | run k2 j =>
      simp only [step] at h
      cases hk2 : s.fans[k2]? with
      | none => simp [hk2] at h
      | some fan2 =>
        simp only [hk2] at h
        cases hr : fan2.runTask cap s.limiter j with
        | none => simp [hr] at h
        | some p =>
          obtain ⟨l1, fan3⟩ := p
          simp only [hr, Option.some.injEq] at h
          subst h
          have := (List.getElem?_eq_some.mp hk1).1
          simp only [List.length_set] at this
          exact absurd this hlt
    | recv k2 =>
      simp only [step] at h
      cases hk2 : s.fans[k2]? with
      | none => simp [hk2] at h
      | some fan2 =>
        simp only [hk2] at h
        cases hr : fan2.receive with
        | none => simp [hr] at h
        | some fan3 =>
          simp only [hr, Option.some.injEq] at h
          subst h
          have := (List.getElem?_eq_some.mp hk1).1
          simp only [List.length_set] at this
          exact absurd this hlt

theorem runEvents_allFull {F : Type} {cap : Nat} (evs : List (Event F)) :
    ∀ (s s1 : Sys F), runEvents cap s evs = some s1 → AllFull s → AllFull s1 := by
  induction evs with
  | nil =>
    intro s s1 h hs
    simp only [runEvents, Option.some.injEq] at h
    subst h
    exact hs
  | cons e es ih =>
    intro s s1 h hs
    simp only [runEvents] at h
    cases hstep : step cap s e with
    | none => simp [hstep] at h
    | some s2 =>
      simp only [hstep] at h
      exact ih s2 s1 h (step_allFull hs hstep)

theorem reachable_invariants {F : Type} {cap : Nat} {s : Sys F} (h : Reachable cap s) :
    AllShaped s ∧ AllFull s ∧ s.limiter = inFlight s ∧ s.limiter ≤ cap := by
  obtain ⟨evs, hrun⟩ := h
  have h1 := runEvents_invariant evs _ _ hrun (allShaped_init F) (Nat.zero_le _)
  have h2 : AllFull s := by
    apply runEvents_allFull evs _ _ hrun
    intro fan hfan
    simp [Sys.init] at hfan
  exact ⟨h1.1, h2, limiter_eq_inFlight evs s hrun, h1.2⟩


/-! ## No deadlock -/

theorem le_sum_map {α : Type} (f : α → Nat) (l : List α) (a : α) (h : a ∈ l) :
    f a ≤ (l.map f).sum := by
  induction l with
  | nil => simp at h
  | cons b t ih =>
    simp only [List.map_cons, List.sum_cons]
    rcases List.mem_cons.mp h with rfl | hmem
    · omega
    · have := ih hmem
      omega

theorem le_taskSum {F : Type} (f : List (Action F) → Nat) (s : Sys F) (fan : Fan F)
    (code : List (Action F)) (hfan : fan ∈ s.fans) (hcode : code ∈ fan.tasks) :
    f code ≤ taskSum f s := by
  have h1 := le_sum_map f fan.tasks code hcode
  have h2 := le_sum_map (fun fn : Fan F => (fn.tasks.map f).sum) s.fans fan hfan
  unfold taskSum
  simp only at h2
  omega

theorem head_of_holdsToken {F : Type} {code : List (Action F)} (h : holdsToken code = true) :
    ∃ (a : Action F) (rest : List (Action F)), code = a :: rest ∧ a.isEnter = false := by
  cases code with
  | nil => simp [holdsToken] at h
  | cons a rest =>
    refine ⟨a, rest, rfl, ?_⟩
    simp only [holdsToken, List.any_cons, Bool.and_eq_true, Bool.not_eq_true',
      Bool.or_eq_false_iff] at h
    exact h.1.1

theorem enter_of_not_holdsToken {F : Type} {code : List (Action F)} (hs : Shaped code)
    (hne : code ≠ []) (h : holdsToken code = false) :
    ∃ rest : List (Action F), code = Action.enter :: rest := by
  obtain ⟨i, render, f, u, m, hs⟩ := hs
  unfold goFunc at hs
  cases hl : m.isLeaf
  · simp only [hl, Bool.false_eq_true, if_false, List.cons_append, List.nil_append,
      List.suffix_cons_iff, List.suffix_nil] at hs
    rcases hs with rfl | rfl | rfl | rfl
    · exact ⟨_, rfl⟩
    · simp [holdsToken, Action.isEnter, Action.isLeave] at h
    · simp [holdsToken, Action.isEnter, Action.isLeave] at h
    · exact absurd rfl hne
  · cases hr : render m.path f u <;>
    · simp only [hl, hr, if_true, List.cons_append, List.nil_append,
        List.suffix_cons_iff, List.suffix_nil] at hs
      rcases hs with rfl | rfl | rfl | rfl | rfl
      · exact ⟨_, rfl⟩
      · simp [holdsToken, Action.isEnter, Action.isLeave] at h
      · simp [holdsToken, Action.isEnter, Action.isLeave] at h
      · simp [holdsToken, Action.isEnter, Action.isLeave] at h
      · exact absurd rfl hne

/-- A goroutine can take its next step unless it waits for a free slot of the
Limiter; a token to give back and room in `rch` are there when needed. -/
theorem step_run_isSome {F : Type} {cap : Nat} {s : Sys F} {k j : Nat} {fan : Fan F}
    {a : Action F} {rest : List (Action F)}
    (hk : s.fans[k]? = some fan) (hj : fan.tasks[j]? = some (a :: rest))
    (henter : a.isEnter = true → s.limiter < cap)
    (hleave : a.isLeave = true → 0 < s.limiter)
    (hsend : ∀ v, a = Action.send v → fan.rch.length < fan.size) :
    (step cap s (Event.run k j)).isSome = true := by
  cases a with
  | enter =>
    have := henter rfl
    simp [step, hk, Fan.runTask, hj, enter, this]
  | render c => simp [step, hk, Fan.runTask, hj]
  | send v =>
    have := hsend v rfl
    simp [step, hk, Fan.runTask, hj, this]
  | leave =>
    have := hleave rfl
    simp [step, hk, Fan.runTask, hj, leave, this]

theorem pending_send_room {F : Type} {fan : Fan F} {code : List (Action F)}
    (hfull : fan.pool.length = fan.size) (hcode : code ∈ fan.tasks)
    (hpos : 0 < (sentValues code).length) : fan.rch.length < fan.size := by
  have h1 := le_sum_map (fun c => (sentValues c).length) fan.tasks code hcode
  have h2 : ((fan.tasks.map sentValues).flatten).length
      = (fan.tasks.map fun c => (sentValues c).length).sum := by
    rw [List.length_flatten, List.map_map]
    rfl
  simp only [Fan.pool, List.length_append] at hfull
  simp only at h1
  omega

/-- No deadlock: with a Limiter of capacity at least 1, in every state the
process can reach in which a goroutine has not finished or a receive loop has
not taken all its values, some goroutine or some receive loop can take a
step. -/
theorem progress {F : Type} (cap : Nat) (hcap : 1 ≤ cap) (s : Sys F)
    (hreach : Reachable cap s) (hnot : ¬ (quiescent s ∧ allReceived s)) :
    ∃ e : Event F, e.isFanOut = false ∧ (step cap s e).isSome = true := by
  obtain ⟨hshaped, hfull, hlim, _⟩ := reachable_invariants hreach
  by_cases hq : quiescent s
  · -- every goroutine has finished: a receive loop has a value waiting
    have hnr : ¬ allReceived s := fun h => hnot ⟨hq, h⟩
    unfold allReceived at hnr
    push_neg at hnr
    obtain ⟨fan, hfan, hne⟩ := hnr
    obtain ⟨k, hk⟩ := List.mem_iff_getElem?.mp hfan
    have hflat : (fan.tasks.map sentValues).flatten = [] := by
      rw [List.flatten_eq_nil_iff]
      intro l hl
      obtain ⟨code, hcode, rfl⟩ := List.mem_map.mp hl
      rw [hq fan hfan code hcode]
      rfl
    have hf := hfull fan hfan
    simp only [Fan.pool, hflat, List.append_nil, List.length_append] at hf
    refine ⟨Event.recv k, rfl, ?_⟩
    have hlt : fan.received.length < fan.size := by omega
    cases hr : fan.rch with
    | nil =>
      rw [hr] at hf
      simp only [List.length_nil] at hf
      omega
    | cons v vs => simp [step, hk, Fan.receive, hlt, hr]
  · unfold quiescent at hq
    push_neg at hq
    obtain ⟨fan0, hfan0, code0, hcode0, hne0⟩ := hq
    by_cases hold : ∃ fan ∈ s.fans, ∃ code ∈ fan.tasks, holdsToken code = true
    · -- a goroutine in flight can go on
      obtain ⟨fan, hfan, code, hcode, hh⟩ := hold
      obtain ⟨k, hk⟩ := List.mem_iff_getElem?.mp hfan
      obtain ⟨j, hj⟩ := List.mem_iff_getElem?.mp hcode
      obtain ⟨a, rest, rfl, ha⟩ := head_of_holdsToken hh
      refine ⟨Event.run k j, rfl, step_run_isSome hk hj ?_ ?_ ?_⟩
      · intro h
        rw [ha] at h
        exact absurd h (by simp)
      · intro _
        have := le_taskSum (fun c => if holdsToken c then 1 else 0) s fan _ hfan hcode
        simp only [hh, if_true] at this
        unfold inFlight at hlim
        omega
      · intro v hv
        subst hv
        exact pending_send_room (hfull fan hfan) hcode (by simp [sentValues])
    · -- no goroutine is in flight: the Limiter is empty and one can enter
      push_neg at hold
      have hzero : inFlight s = 0 := by
        apply taskSum_zero_of_forall
        intro fan hfan code hcode
        have := hold fan hfan code hcode
        simp [this]
      obtain ⟨k, hk⟩ := List.mem_iff_getElem?.mp hfan0
      obtain ⟨j, hj⟩ := List.mem_iff_getElem?.mp hcode0
      have hnh : holdsToken code0 = false := by
        have := hold fan0 hfan0 code0 hcode0
        simpa using this
      obtain ⟨rest, rfl⟩ := enter_of_not_holdsToken (hshaped fan0 hfan0 code0 hcode0) hne0 hnh
      refine ⟨Event.run k j, rfl, step_run_isSome hk hj ?_ ?_ ?_⟩
      · intro _
        omega
      · intro h
        simp [Action.isLeave] at h
      · intro v hv
        cases hv


/-! ## Termination -/

/-- Every step of a goroutine or of a receive loop takes one unit off the work
left. -/
theorem step_remaining {F : Type} {cap : Nat} {s s1 : Sys F} {e : Event F}
    (h : step cap s e = some s1) (he : e.isFanOut = false) :
    remaining s1 + 1 = remaining s := by
  cases e with
  | fanOut b i f u glob => simp [Event.isFanOut] at he
  | run k j =>
    simp only [step] at h
    cases hk : s.fans[k]? with
    | none => simp [hk] at h
    | some fan =>
      simp only [hk] at h
      cases hr : fan.runTask cap s.limiter j with
      | none => simp [hr] at h
      | some p =>
        obtain ⟨l1, fan1⟩ := p
        simp only [hr, Option.some.injEq] at h
        subst h
        obtain ⟨a, rest, hj, ht, hsz, hrc, _, _, _⟩ := runTask_some hr
        have h1 := taskSum_set List.length s l1 k j fan fan1 _ rest hk hj ht
        have h2 := sum_map_set (fun fn : Fan F => fn.size - fn.received.length) s.fans k
          fan fan1 hk
        simp only [hsz, hrc, List.length_cons] at h1 h2
        unfold remaining
        simp only
        omega
  | recv k =>
    simp only [step] at h
    cases hk : s.fans[k]? with
    | none => simp [hk] at h
    | some fan =>
      simp only [hk] at h
      cases hr : fan.receive with
      | none => simp [hr] at h
      | some fan1 =>
        simp only [hr, Option.some.injEq] at h
        subst h
        obtain ⟨v, vs, _, _, hrc, ht, hsz, hlt⟩ := receive_some hr
        have h1 := taskSum_same List.length s s.limiter k fan fan1 hk ht
        have h2 := sum_map_set (fun fn : Fan F => fn.size - fn.received.length) s.fans k
          fan fan1 hk
        simp only [hsz, hrc, List.length_append, List.length_singleton] at h2
        unfold remaining
        simp only [h1]
        omega

/-- Runs are bounded: a run without new fan-outs takes exactly as many steps
as it takes units off the work left. -/
theorem runEvents_remaining {F : Type} {cap : Nat} (evs : List (Event F)) :
    ∀ (s s1 : Sys F), runEvents cap s evs = some s1 → (∀ e ∈ evs, e.isFanOut = false) →
      remaining s1 + evs.length = remaining s := by
  induction evs with
  | nil =>
    intro s s1 h _
    simp only [runEvents, Option.some.injEq] at h
    subst h
    rfl
  | cons e es ih =>
    intro s s1 h hall
    simp only [runEvents] at h
    cases hstep : step cap s e with
    | none => simp [hstep] at h
    | some s2 =>
      simp only [hstep] at h
      have h1 := step_remaining hstep (hall e (List.mem_cons_self _ _))
      have h2 := ih s2 s1 h (fun x hx => hall x (List.mem_cons_of_mem _ hx))
      simp only [List.length_cons]
      omega

theorem runEvents_append {F : Type} {cap : Nat} (evs : List (Event F)) :
    ∀ (s s1 : Sys F) (e : Event F) (s2 : Sys F), runEvents cap s evs = some s1 →
      step cap s1 e = some s2 → runEvents cap s (evs ++ [e]) = some s2 := by
  induction evs with
  | nil =>
    intro s s1 e s2 h hstep
    simp only [runEvents, Option.some.injEq] at h
    subst h
    simp [runEvents, hstep]
  | cons e0 es ih =>
    intro s s1 e s2 h hstep
    simp only [runEvents] at h
    cases hs : step cap s e0 with
    | none => simp [hs] at h
    | some s3 =>
      simp only [hs] at h
      simp only [List.cons_append, runEvents, hs]
      exact ih s3 s1 e s2 h hstep

theorem reachable_step {F : Type} {cap : Nat} {s s1 : Sys F} {e : Event F}
    (hreach : Reachable cap s) (h : step cap s e = some s1) : Reachable cap s1 := by
  obtain ⟨evs, hrun⟩ := hreach
  exact ⟨evs ++ [e], runEvents_append evs _ s e s1 hrun h⟩

/-- Completion: with a Limiter of capacity at least 1, from every state the
process can reach, the goroutines and receive loops can run to the end, in
exactly `remaining s` steps: every goroutine finishes and every receive loop
takes all its values. -/
theorem completes {F : Type} (cap : Nat) (hcap : 1 ≤ cap) :
    ∀ (n : Nat) (s : Sys F), Reachable cap s → remaining s = n →
      ∃ (evs : List (Event F)) (s1 : Sys F),
        (∀ e ∈ evs, e.isFanOut = false) ∧ runEvents cap s evs = some s1
          ∧ quiescent s1 ∧ allReceived s1 ∧ evs.length = n := by
  intro n
  induction n with
  | zero =>
    intro s hreach hrem
    by_cases hfin : quiescent s ∧ allReceived s
    · exact ⟨[], s, by simp, rfl, hfin.1, hfin.2, rfl⟩
    · obtain ⟨e, he, hsome⟩ := progress cap hcap s hreach hfin
      obtain ⟨s1, hs1⟩ := Option.isSome_iff_exists.mp hsome
      have := step_remaining hs1 he
      omega
  | succ m ih =>
    intro s hreach hrem
    by_cases hfin : quiescent s ∧ allReceived s
    · exfalso
      have h1 : taskSum List.length s = 0 :=
        taskSum_quiescent List.length rfl s hfin.1
      have h2 : (s.fans.map fun fan => fan.size - fan.received.length).sum = 0 := by
        apply List.sum_eq_zero
        intro x hx
        obtain ⟨fan, hfan, rfl⟩ := List.mem_map.mp hx
        have := hfin.2 fan hfan
        omega
      unfold remaining at hrem
      omega
    · obtain ⟨e, he, hsome⟩ := progress cap hcap s hreach hfin
      obtain ⟨s1, hs1⟩ := Option.isSome_iff_exists.mp hsome
      have hr := step_remaining hs1 he
      obtain ⟨evs, s2, hall, hrun, hq, hrecv, hlen⟩ :=
        ih s1 (reachable_step hreach hs1) (by omega)
      refine ⟨e :: evs, s2, ?_, ?_, hq, hrecv, by simp [hlen]⟩
      · intro x hx
        rcases List.mem_cons.mp hx with rfl | hmem
        · exact he
        · exact hall x hmem
      · simp only [runEvents, hs1]
        exact hrun

end Carbonapi
